import Mathlib

/-!
Verification of the wgsl-linker core against its natural-language
specification.  Each subsystem of the implementation is embedded
shallowly: pure functions become Lean functions, in-place mutation
becomes explicit state passing, and code that throws a JavaScript
exception returns `Option`/`Except` with `none`/`.error` standing for
the thrown exception.  Positions and lengths are `Nat` (they are
array indices and never negative in the source).
-/

set_option maxHeartbeats 1000000

namespace WgslLinker

/-! ## Source maps (SrcMap.ts)

`SrcMapEntry`, `destToSrc`, `mapPositions`, `compact`, `sort`,
`sortSrc` and `merge` are translated from
`packages/mini-parse/src/SrcMap.ts`.  JavaScript `Array.prototype.sort`
is stable, so it is modelled with a stable structural sort.
`destToSrc` and `merge` throw `Error`s; those are modelled as
`Option`/`Except.error` results. -/

structure SrcMapEntry where
  src : String
  srcStart : Nat
  srcEnd : Nat
  destStart : Nat
  destEnd : Nat
deriving DecidableEq, Repr

structure SrcPosition where
  src : String
  position : Nat
deriving DecidableEq, Repr

structure SrcMap where
  dest : String
  entries : List SrcMapEntry
deriving DecidableEq, Repr

/-- Translation of `destToSrc` (SrcMap.ts lines 117-126).  `entries.find`
returns the first entry whose inclusive dest range contains `destPos`;
the `throw new Error(...)` on a missing entry is modelled as `none`. -/
def destToSrc (destPos : Nat) (entries : List SrcMapEntry) : Option SrcPosition :=
  match entries.find? (fun e => e.destStart ≤ destPos ∧ destPos ≤ e.destEnd) with
  | some entry => some ⟨entry.src, entry.srcStart + destPos - entry.destStart⟩
  | none => none

/-- Translation of `SrcMap.mapPositions`: maps each position through
`destToSrc`; the first uncovered position throws, which `Option.mapM`
models by returning `none`. -/
def mapPositions (m : SrcMap) (positions : List Nat) : Option (List SrcPosition) :=
  positions.mapM (fun p => destToSrc p m.entries)

/-- Translation of the loop body of `SrcMap.compact` (lines 40-61): the
running `prev` entry absorbs the next entry when both have the same
`src` and contiguous src and dest ranges. -/
def compactList : SrcMapEntry → List SrcMapEntry → List SrcMapEntry
  | prev, [] => [prev]
  | prev, e :: rest =>
    if e.src = prev.src ∧ prev.destEnd = e.destStart ∧ prev.srcEnd = e.srcStart then
      compactList { prev with destEnd := e.destEnd, srcEnd := e.srcEnd } rest
    else
      prev :: compactList e rest

/-- Translation of `SrcMap.compact` on the entry list (the
`if (!this.entries.length) return` guard and the loop). -/
def compactEntries : List SrcMapEntry → List SrcMapEntry
  | [] => []
  | first :: rest => compactList first rest

/-- The `compact` method at the `SrcMap` level. -/
def SrcMap.compact (m : SrcMap) : SrcMap :=
  { m with entries := compactEntries m.entries }

/-- Stable insertion into a sorted list: an element is placed before
the first element it compares `le` to, hence after all earlier equal
elements. -/
def insertSorted {α : Type _} (le : α → α → Bool) (x : α) : List α → List α
  | [] => [x]
  | y :: ys => if le x y then x :: y :: ys else y :: insertSorted le x ys

/-- Stable sort.  JavaScript `Array.prototype.sort` is specified to be
stable, and all stable sorts of a list under a total comparison agree,
so the structural insertion sort is a faithful model of the sorts in
`SrcMap.ts`. -/
def stableSort {α : Type _} (le : α → α → Bool) : List α → List α
  | [] => []
  | x :: xs => insertSorted le x (stableSort le xs)

/-- Translation of `SrcMap.sort` (sort entries by `destStart`). -/
def sortDest (entries : List SrcMapEntry) : List SrcMapEntry :=
  stableSort (fun a b => a.destStart ≤ b.destStart) entries

/-- Translation of `sortSrc` (sort entries by `srcStart`). -/
def sortSrc (entries : List SrcMapEntry) : List SrcMapEntry :=
  stableSort (fun a b => a.srcStart ≤ b.srcStart) entries

/-- Membership is preserved by `insertSorted`. -/
theorem mem_insertSorted {α : Type _} (le : α → α → Bool) (x a : α) :
    ∀ l : List α, a ∈ insertSorted le x l ↔ a = x ∨ a ∈ l := by
  intro l
  induction l with
  | nil => simp [insertSorted]
  | cons y ys ih =>
    unfold insertSorted
    by_cases h : le x y = true
    · rw [if_pos h]
      simp [List.mem_cons]
    · rw [if_neg h]
      simp only [List.mem_cons, ih]
      tauto

/-- Membership is preserved by `stableSort`. -/
theorem mem_stableSort {α : Type _} (le : α → α → Bool) (a : α) :
    ∀ l : List α, a ∈ stableSort le l ↔ a ∈ l := by
  intro l
  induction l with
  | nil => simp [stableSort]
  | cons y ys ih =>
    unfold stableSort
    rw [mem_insertSorted, ih, List.mem_cons]

/-- Translation of the per-entry body of `SrcMap.merge`: reproject one
entry of the other map through this map's entries.  The
`throw new Error("NYI, need to split")` and the `destToSrc` throws
become `Except.error`. -/
def mergeEntry (entries : List SrcMapEntry) (e : SrcMapEntry) : Except String SrcMapEntry :=
  match destToSrc e.srcStart entries with
  | none => Except.error "no SrcMapEntry for dest position"
  | some s =>
    match destToSrc e.srcEnd entries with
    | none => Except.error "no SrcMapEntry for dest position"
    | some s2 =>
      if s2.src ≠ s.src then Except.error "NYI, need to split"
      else Except.ok
        { src := s.src, srcStart := s.position, srcEnd := s2.position,
          destStart := e.destStart, destEnd := e.destEnd }

/-- Translation of `SrcMap.merge` (lines 72-104).  The JavaScript
`other === this` reference check is modelled as structural equality
(the registry never builds two equal-but-distinct maps it would merge).
The `mappedEntries.length === 0` branch logs and returns `other`. -/
def SrcMap.merge (m : SrcMap) (other : SrcMap) : Except String SrcMap :=
  if other = m then Except.ok m
  else
    let mappedEntries := other.entries.filter (fun e => e.src = m.dest)
    if mappedEntries.length = 0 then Except.ok other
    else
      match (sortSrc mappedEntries).mapM (mergeEntry m.entries) with
      | Except.error msg => Except.error msg
      | Except.ok newEntries =>
        let otherSources := other.entries.filter (fun e => ¬ e.src = m.dest)
        Except.ok ⟨other.dest, sortDest (otherSources ++ newEntries)⟩

/-! ### Generic list helpers -/

/-- An element known to satisfy the predicate, and to be the only such
value in the list, is what `find?` returns. -/
theorem find?_of_unique {α} (p : α → Bool) :
    ∀ (l : List α) (a : α), a ∈ l → p a = true →
      (∀ b ∈ l, p b = true → b = a) → l.find? p = some a := by
  intro l
  induction l with
  | nil => intro a ha _ _; cases ha
  | cons x xs ih =>
    intro a ha hp huniq
    by_cases hx : p x = true
    · have : x = a := huniq x (List.mem_cons_self x xs) hx
      rw [List.find?_cons_of_pos _ hx, this]
    · have hne : x ≠ a := fun h => hx (h ▸ hp)
      have ha' : a ∈ xs := by
        cases List.mem_cons.mp ha with
        | inl h => exact absurd h.symm hne
        | inr h => exact h
      rw [List.find?_cons_of_neg _ (by simpa using hx)]
      exact ih a ha' hp (fun b hb => huniq b (List.mem_cons_of_mem _ hb))

/-- Unfolding lemma for `destToSrc` on a cons cell. -/
theorem destToSrc_cons (p : Nat) (x : SrcMapEntry) (l : List SrcMapEntry) :
    destToSrc p (x :: l) =
      if x.destStart ≤ p ∧ p ≤ x.destEnd then
        some ⟨x.src, x.srcStart + p - x.destStart⟩
      else destToSrc p l := by
  by_cases h : x.destStart ≤ p ∧ p ≤ x.destEnd
  · rw [if_pos h]
    unfold destToSrc
    rw [List.find?_cons_of_pos _ (by simpa using h)]
  · rw [if_neg h]
    unfold destToSrc
    rw [List.find?_cons_of_neg _ (by simpa using h)]

/-- A successful `destToSrc` comes from a member entry covering the
position. -/
theorem destToSrc_eq_some {p : Nat} {l : List SrcMapEntry} {sp : SrcPosition}
    (h : destToSrc p l = some sp) :
    ∃ e ∈ l, (e.destStart ≤ p ∧ p ≤ e.destEnd) ∧
      sp = ⟨e.src, e.srcStart + p - e.destStart⟩ := by
  unfold destToSrc at h
  cases hf : l.find? (fun e => e.destStart ≤ p ∧ p ≤ e.destEnd) with
  | none => rw [hf] at h; cases h
  | some entry =>
    rw [hf] at h
    refine ⟨entry, List.mem_of_find?_eq_some hf, ?_, ?_⟩
    · have := List.find?_some hf
      simpa using this
    · cases h; rfl

/-- `destToSrc` succeeds exactly on covered positions. -/
theorem destToSrc_isSome_iff (p : Nat) (l : List SrcMapEntry) :
    (destToSrc p l).isSome ↔ ∃ e ∈ l, e.destStart ≤ p ∧ p ≤ e.destEnd := by
  unfold destToSrc
  cases hf : l.find? (fun e => e.destStart ≤ p ∧ p ≤ e.destEnd) with
  | none =>
    simp only [Option.isSome_none, Bool.false_eq_true, false_iff]
    rintro ⟨e, he, hcov⟩
    have := List.find?_eq_none.mp hf e he
    simp [hcov.1, hcov.2] at this
  | some entry =>
    simp only [Option.isSome_some, true_iff]
    exact ⟨entry, List.mem_of_find?_eq_some hf, by simpa using List.find?_some hf⟩

/-! ### Claim C4: total operations versus thrown errors -/

/-- Counterexample for claim C4: `mapPositions` on a map with no entry
covering the queried position throws
(`throw new Error("no SrcMapEntry for dest position ...")` in
`destToSrc`), modelled by the `none` result, so the source-map
operations do not "return normally for every input". -/
theorem mapPositions_throws_on_uncovered :
    mapPositions ⟨"dest", []⟩ [0] = none := rfl

/-- Amended claim C4: `mapPositions` returns normally whenever every
queried destination position is covered by some entry of the map;
uncovered positions (and `merge` of maps whose reprojected entries span
two sources) throw instead of logging. -/
theorem mapPositions_ok_of_covered (m : SrcMap) (positions : List Nat)
    (h : ∀ p ∈ positions, ∃ e ∈ m.entries, e.destStart ≤ p ∧ p ≤ e.destEnd) :
    ∃ res, mapPositions m positions = some res := by
  unfold mapPositions
  induction positions with
  | nil => exact ⟨[], rfl⟩
  | cons q qs ih =>
    have hq : (destToSrc q m.entries).isSome :=
      (destToSrc_isSome_iff q m.entries).mpr (h q (List.mem_cons_self q qs))
    obtain ⟨sp, hsp⟩ := Option.isSome_iff_exists.mp hq
    obtain ⟨res, hres⟩ := ih (fun p hp => h p (List.mem_cons_of_mem _ hp))
    exact ⟨sp :: res, by rw [List.mapM_cons, hsp, hres]; rfl⟩

/-- Witness for the amended claim C4 at a concrete covered query. -/
theorem mapPositions_ok_of_covered_witness :
    ∃ res, mapPositions ⟨"d", [⟨"s", 2, 7, 0, 5⟩]⟩ [1, 4] = some res :=
  mapPositions_ok_of_covered ⟨"d", [⟨"s", 2, 7, 0, 5⟩]⟩ [1, 4] (by decide)

/-! ### Claim C10: `compact` preserves `mapPositions` -/

/-- Well-formedness of one source-map entry, as stated by the spec's
data model: the destination range is a real interval and the entry is
length preserving (`destEnd - destStart = srcEnd - srcStart`, written
additively to avoid truncated subtraction). -/
def entryWF (e : SrcMapEntry) : Prop :=
  e.destStart ≤ e.destEnd ∧ e.srcEnd + e.destStart = e.srcStart + e.destEnd

instance : DecidablePred entryWF := fun e => by unfold entryWF; infer_instance

/-- Merging one contiguous, length-preserving pair of entries does not
change any `destToSrc` answer. -/
theorem destToSrc_merged_pair (p : Nat) (prev e : SrcMapEntry)
    (rest : List SrcMapEntry) (hwp : entryWF prev) (hwe : entryWF e)
    (hsrc : e.src = prev.src) (hd : prev.destEnd = e.destStart)
    (hs : prev.srcEnd = e.srcStart) :
    destToSrc p ({ prev with destEnd := e.destEnd, srcEnd := e.srcEnd } :: rest) =
      destToSrc p (prev :: e :: rest) := by
  rw [destToSrc_cons, destToSrc_cons, destToSrc_cons]
  dsimp only
  obtain ⟨hwp1, hwp2⟩ := hwp
  obtain ⟨hwe1, hwe2⟩ := hwe
  by_cases h1 : prev.destStart ≤ p ∧ p ≤ prev.destEnd
  · rw [if_pos (by exact ⟨h1.1, by omega⟩), if_pos h1]
  · by_cases h2 : e.destStart ≤ p ∧ p ≤ e.destEnd
    · rw [if_pos (by constructor <;> omega), if_neg h1, if_pos h2]
      have : prev.srcStart + p - prev.destStart = e.srcStart + p - e.destStart := by
        omega
      simp [hsrc, this]
    · rw [if_neg (by intro hc; exact h2 ⟨by omega, hc.2⟩), if_neg h1, if_neg h2]

/-- The `compact` loop preserves `destToSrc` at every position when all
entries are well formed. -/
theorem compactList_destToSrc (p : Nat) :
    ∀ (rest : List SrcMapEntry) (prev : SrcMapEntry),
      (∀ e ∈ prev :: rest, entryWF e) →
      destToSrc p (compactList prev rest) = destToSrc p (prev :: rest) := by
  intro rest
  induction rest with
  | nil => intro prev _; rfl
  | cons e rest ih =>
    intro prev hwf
    have hwp := hwf prev (List.mem_cons_self _ _)
    have hwe := hwf e (List.mem_cons_of_mem _ (List.mem_cons_self _ _))
    unfold compactList
    by_cases hc : e.src = prev.src ∧ prev.destEnd = e.destStart ∧ prev.srcEnd = e.srcStart
    · rw [if_pos hc]
      have hwm : entryWF { prev with destEnd := e.destEnd, srcEnd := e.srcEnd } := by
        obtain ⟨hwp1, hwp2⟩ := hwp
        obtain ⟨hwe1, hwe2⟩ := hwe
        constructor <;> simp <;> omega
      rw [ih _ (by
        intro x hx
        cases List.mem_cons.mp hx with
        | inl h => exact h ▸ hwm
        | inr h => exact hwf x (List.mem_cons_of_mem _ (List.mem_cons_of_mem _ h)))]
      exact destToSrc_merged_pair p prev e rest hwp hwe hc.1 hc.2.1 hc.2.2
    · rw [if_neg hc, destToSrc_cons, destToSrc_cons,
        ih e (fun x hx => hwf x (List.mem_cons_of_mem _ hx))]

/-- Amended claim C10: provided every entry is well formed in the sense
of the spec's data model (real destination interval, length
preserving), `compact` never changes the map's observable behaviour:
`mapPositions` answers identically before and after compaction.  The
unrestricted claim fails on replacement entries (see the
counterexample). -/
theorem compact_preserves_mapPositions (m : SrcMap)
    (h : ∀ e ∈ m.entries, entryWF e) (ps : List Nat) :
    mapPositions m.compact ps = mapPositions m ps := by
  have hent : ∀ p, destToSrc p (compactEntries m.entries) = destToSrc p m.entries := by
    intro p
    cases hm : m.entries with
    | nil => rfl
    | cons first rest =>
      unfold compactEntries
      exact compactList_destToSrc p rest first (hm ▸ h)
  unfold mapPositions SrcMap.compact
  simp only
  induction ps with
  | nil => rfl
  | cons q qs ih => rw [List.mapM_cons, List.mapM_cons, hent q, ih]

/-- Witness for the amended claim C10 on a concrete well-formed map. -/
theorem compact_preserves_mapPositions_witness :
    mapPositions (SrcMap.compact ⟨"d", [⟨"s", 0, 2, 0, 2⟩, ⟨"s", 2, 4, 2, 4⟩]⟩) [0, 3] =
      mapPositions ⟨"d", [⟨"s", 0, 2, 0, 2⟩, ⟨"s", 2, 4, 2, 4⟩]⟩ [0, 3] :=
  compact_preserves_mapPositions ⟨"d", [⟨"s", 0, 2, 0, 2⟩, ⟨"s", 2, 4, 2, 4⟩]⟩
    (by decide) [0, 3]

/-- Counterexample for claim C10 as stated: on a replacement entry
(dest range longer than src range — allowed by the data model), the
merged entry produced by `compact` reports a different source position
for the same destination position. -/
theorem compact_changes_replacement_entry :
    mapPositions ⟨"d", [⟨"s", 0, 1, 0, 2⟩, ⟨"s", 1, 2, 2, 3⟩]⟩ [3] =
        some [⟨"s", 2⟩] ∧
      mapPositions (SrcMap.compact ⟨"d", [⟨"s", 0, 1, 0, 2⟩, ⟨"s", 1, 2, 2, 3⟩]⟩) [3] =
        some [⟨"s", 3⟩] ∧
      (⟨"s", 2⟩ : SrcPosition) ≠ ⟨"s", 3⟩ := by
  refine ⟨rfl, rfl, by decide⟩

/-! ### Claim C3: `merge` composes with `mapPositions` -/

/-- Entries pairwise non-overlapping in the destination (the data-model
invariant "entries non-overlapping in the destination"; `destToSrc`
treats both ends as inclusive, so non-overlap here is strict). -/
def disjointEntries (l : List SrcMapEntry) : Prop :=
  List.Pairwise (fun a b => a.destEnd < b.destStart ∨ b.destEnd < a.destStart) l

instance : DecidablePred disjointEntries := fun l => by
  unfold disjointEntries; infer_instance

/-- With pairwise-disjoint entries, at most one entry covers any
destination position. -/
theorem unique_cover_of_disjoint {l : List SrcMapEntry} (hd : disjointEntries l)
    {E : SrcMapEntry} (hE : E ∈ l) {q : Nat}
    (hcov : E.destStart ≤ q ∧ q ≤ E.destEnd) :
    ∀ e' ∈ l, (e'.destStart ≤ q ∧ q ≤ e'.destEnd) → e' = E := by
  intro e' he' hcov'
  obtain ⟨i, hi, hEi⟩ := List.mem_iff_getElem.mp hE
  obtain ⟨j, hj, hej⟩ := List.mem_iff_getElem.mp he'
  rcases Nat.lt_trichotomy i j with hij | hij | hij
  · have := (List.pairwise_iff_getElem.mp hd) i j hi hj hij
    rw [hEi, hej] at this
    rcases this with h | h <;> omega
  · subst hij
    rw [← hej]
    exact hEi
  · have := (List.pairwise_iff_getElem.mp hd) j i hj hi hij
    rw [hEi, hej] at this
    rcases this with h | h <;> omega

/-- When a member entry covers the position and is the only covering
value, `destToSrc` returns its projection. -/
theorem destToSrc_of_unique {l : List SrcMapEntry} {E : SrcMapEntry} {q : Nat}
    (hE : E ∈ l) (hcov : E.destStart ≤ q ∧ q ≤ E.destEnd)
    (huniq : ∀ e' ∈ l, (e'.destStart ≤ q ∧ q ≤ e'.destEnd) → e' = E) :
    destToSrc q l = some ⟨E.src, E.srcStart + q - E.destStart⟩ := by
  unfold destToSrc
  rw [find?_of_unique _ l E hE (by simpa using hcov)
    (fun b hb hpb => huniq b hb (by simpa using hpb))]

/-- Success of `mapM` over `Except` when every element maps to `ok`,
with the pointwise relation between input and output. -/
theorem mapM_except_ok_of_all {α β ε : Type _} {f : α → Except ε β} :
    ∀ {l : List α}, (∀ x ∈ l, ∃ y, f x = Except.ok y) →
      ∃ out, l.mapM f = Except.ok out ∧
        List.Forall₂ (fun x y => f x = Except.ok y) l out := by
  intro l
  induction l with
  | nil => exact fun _ => ⟨[], by rw [List.mapM_nil]; rfl, List.Forall₂.nil⟩
  | cons x xs ih =>
    intro h
    obtain ⟨y, hy⟩ := h x (List.mem_cons_self x xs)
    obtain ⟨out, hout, hrel⟩ := ih (fun b hb => h b (List.mem_cons_of_mem _ hb))
    refine ⟨y :: out, ?_, List.Forall₂.cons hy hrel⟩
    rw [List.mapM_cons, hy, hout]
    rfl

/-- A related member on the right for each member on the left of a
`Forall₂`. -/
theorem forall₂_mem_left {α β : Type _} {R : α → β → Prop} :
    ∀ {l : List α} {out : List β}, List.Forall₂ R l out →
      ∀ x ∈ l, ∃ y ∈ out, R x y := by
  intro l out h
  induction h with
  | nil => intro x hx; cases hx
  | cons hxy _ ih =>
    intro x hx
    cases List.mem_cons.mp hx with
    | inl h' => exact ⟨_, List.mem_cons_self _ _, h' ▸ hxy⟩
    | inr h' =>
      obtain ⟨y, hy, hr⟩ := ih x h'
      exact ⟨y, List.mem_cons_of_mem _ hy, hr⟩

/-- A related member on the left for each member on the right of a
`Forall₂`. -/
theorem forall₂_mem_right {α β : Type _} {R : α → β → Prop} :
    ∀ {l : List α} {out : List β}, List.Forall₂ R l out →
      ∀ y ∈ out, ∃ x ∈ l, R x y := by
  intro l out h
  induction h with
  | nil => intro y hy; cases hy
  | cons hxy _ ih =>
    intro y hy
    cases List.mem_cons.mp hy with
    | inl h' => exact ⟨_, List.mem_cons_self _ _, h' ▸ hxy⟩
    | inr h' =>
      obtain ⟨x, hx, hr⟩ := ih y h'
      exact ⟨x, List.mem_cons_of_mem _ hx, hr⟩

/-- A successful `mergeEntry` keeps the destination range of its input
and takes its source data from the two `destToSrc` lookups. -/
theorem mergeEntry_ok_dest {entries : List SrcMapEntry} {e y : SrcMapEntry}
    (h : mergeEntry entries e = Except.ok y) :
    y.destStart = e.destStart ∧ y.destEnd = e.destEnd := by
  unfold mergeEntry at h
  cases h1 : destToSrc e.srcStart entries with
  | none => rw [h1] at h; exact absurd h (by simp)
  | some s =>
    rw [h1] at h
    dsimp only at h
    cases h2 : destToSrc e.srcEnd entries with
    | none => rw [h2] at h; exact absurd h (by simp)
    | some s2 =>
      rw [h2] at h
      dsimp only at h
      by_cases hs : s2.src ≠ s.src
      · rw [if_pos hs] at h; exact absurd h (by simp)
      · rw [if_neg hs] at h
        cases h
        exact ⟨rfl, rfl⟩

/-- Amended claim C3: merging composes with position mapping under the
spec's own data-model invariants — every entry of M2 maps from M1's
destination, the entries of each map are pairwise non-overlapping in
their destination, M2's entries are length preserving, and each M2
entry's source range lies within a single M1 entry.  Then for every
destination position of M2 covered by M2, `(M1 ⋈ M2).mapPositions p`
equals `M1.mapPositions (M2.mapPositions p)`.  Without the
single-entry-containment condition the claim fails (see the
counterexample). -/
theorem merge_matches_composition (m1 m2 : SrcMap)
    (hne : m2 ≠ m1)
    (hsrc : ∀ e ∈ m2.entries, e.src = m1.dest)
    (hd1 : disjointEntries m1.entries)
    (hd2 : disjointEntries m2.entries)
    (hwf2 : ∀ e ∈ m2.entries, entryWF e)
    (hfit : ∀ e ∈ m2.entries, ∃ E ∈ m1.entries,
      E.destStart ≤ e.srcStart ∧ e.srcEnd ≤ E.destEnd)
    (p : Nat) (sp : SrcPosition) (hp : destToSrc p m2.entries = some sp) :
    ∃ merged, m1.merge m2 = Except.ok merged ∧
      destToSrc p merged.entries = destToSrc sp.position m1.entries ∧
      (destToSrc sp.position m1.entries).isSome := by
  -- the entry of M2 that answers the query
  obtain ⟨e, heMem, heCov, hsp⟩ := destToSrc_eq_some hp
  -- each M2 entry reprojects successfully through its containing M1 entry
  have hEntry : ∀ e' ∈ m2.entries, ∃ E ∈ m1.entries,
      (E.destStart ≤ e'.srcStart ∧ e'.srcEnd ≤ E.destEnd) ∧
      mergeEntry m1.entries e' = Except.ok
        ⟨E.src, E.srcStart + e'.srcStart - E.destStart,
          E.srcStart + e'.srcEnd - E.destStart, e'.destStart, e'.destEnd⟩ := by
    intro e' he'
    obtain ⟨E, hEmem, hE1, hE2⟩ := hfit e' he'
    have hwf := hwf2 e' he'
    have hse : e'.srcStart ≤ e'.srcEnd := by
      obtain ⟨h1, h2⟩ := hwf; omega
    have hcov1 : E.destStart ≤ e'.srcStart ∧ e'.srcStart ≤ E.destEnd := ⟨hE1, by omega⟩
    have hcov2 : E.destStart ≤ e'.srcEnd ∧ e'.srcEnd ≤ E.destEnd := ⟨by omega, hE2⟩
    have hd1' := unique_cover_of_disjoint hd1 hEmem hcov1
    have hd2' := unique_cover_of_disjoint hd1 hEmem hcov2
    refine ⟨E, hEmem, ⟨hE1, hE2⟩, ?_⟩
    unfold mergeEntry
    rw [destToSrc_of_unique hEmem hcov1 hd1', destToSrc_of_unique hEmem hcov2 hd2']
    dsimp only
    rw [if_neg (by simp)]
  -- run the merge
  have hfilter : m2.entries.filter (fun e => decide (e.src = m1.dest)) = m2.entries :=
    List.filter_eq_self.mpr (fun a ha => by simpa using hsrc a ha)
  have hlen : ¬ m2.entries.length = 0 := by
    intro h0
    rw [List.length_eq_zero] at h0
    rw [h0] at heMem
    cases heMem
  have hall : ∀ x ∈ sortSrc m2.entries, ∃ y, mergeEntry m1.entries x = Except.ok y := by
    intro x hx
    have hx' : x ∈ m2.entries := by
      unfold sortSrc at hx
      exact (mem_stableSort _ _ _).mp hx
    obtain ⟨E, _, _, hok⟩ := hEntry x hx'
    exact ⟨_, hok⟩
  obtain ⟨out, hmapM, hrel⟩ := mapM_except_ok_of_all hall
  have hnil : m2.entries.filter (fun e => decide (¬ e.src = m1.dest)) = [] :=
    List.filter_eq_nil_iff.mpr (fun a ha => by simpa using hsrc a ha)
  have hmerge : m1.merge m2 = Except.ok ⟨m2.dest, sortDest out⟩ := by
    unfold SrcMap.merge
    rw [if_neg hne]
    simp only [hfilter, hlen, if_false, hmapM, hnil, List.nil_append]
  -- the reprojected entry of `e`, and its containing M1 entry
  obtain ⟨E, hEmem, ⟨hE1, hE2⟩, hok⟩ := hEntry e heMem
  have hwfE := hwf2 e heMem
  refine ⟨⟨m2.dest, sortDest out⟩, hmerge, ?_, ?_⟩
  · -- both lookups hit the entries derived from `e` and its cover `E`
    set y : SrcMapEntry :=
      ⟨E.src, E.srcStart + e.srcStart - E.destStart,
        E.srcStart + e.srcEnd - E.destStart, e.destStart, e.destEnd⟩ with hy
    have hyMem : y ∈ sortDest out := by
      obtain ⟨y', hy'Mem, hy'⟩ := forall₂_mem_left hrel e
        (by unfold sortSrc; exact (mem_stableSort _ _ _).mpr heMem)
      have : y' = y := by
        rw [hok] at hy'
        injection hy' with h
        exact h.symm
      unfold sortDest
      exact (mem_stableSort _ _ _).mpr (this ▸ hy'Mem)
    have hyCov : y.destStart ≤ p ∧ p ≤ y.destEnd := by
      rw [hy]; exact heCov
    have hyUniq : ∀ y' ∈ sortDest out, (y'.destStart ≤ p ∧ p ≤ y'.destEnd) → y' = y := by
      intro y' hy'Mem hy'Cov
      have hy'Out : y' ∈ out := by
        unfold sortDest at hy'Mem
        exact (mem_stableSort _ _ _).mp hy'Mem
      obtain ⟨e', he'Mem, he'Rel⟩ := forall₂_mem_right hrel y' hy'Out
      have he'M2 : e' ∈ m2.entries := by
        unfold sortSrc at he'Mem
        exact (mem_stableSort _ _ _).mp he'Mem
      obtain ⟨hds, hde⟩ := mergeEntry_ok_dest he'Rel
      have he'Cov : e'.destStart ≤ p ∧ p ≤ e'.destEnd := by
        rw [← hds, ← hde]; exact hy'Cov
      have : e' = e := unique_cover_of_disjoint hd2 heMem heCov e' he'M2 he'Cov
      rw [this, hok] at he'Rel
      injection he'Rel with h
      exact h.symm
    rw [destToSrc_of_unique hyMem hyCov hyUniq]
    -- the composed lookup lands in `E`
    have hq : sp.position = e.srcStart + p - e.destStart := by rw [hsp]
    have hqCov : E.destStart ≤ sp.position ∧ sp.position ≤ E.destEnd := by
      obtain ⟨hw1, hw2⟩ := hwfE
      constructor <;> (rw [hq]; omega)
    rw [destToSrc_of_unique hEmem hqCov (unique_cover_of_disjoint hd1 hEmem hqCov)]
    have hposEq : y.srcStart + p - y.destStart =
        E.srcStart + sp.position - E.destStart := by
      rw [hy, hq]
      obtain ⟨hw1, hw2⟩ := hwfE
      simp only
      omega
    rw [hy] at hposEq ⊢
    simp only at hposEq ⊢
    rw [hposEq]
  · have hq : sp.position = e.srcStart + p - e.destStart := by rw [hsp]
    have hqCov : E.destStart ≤ sp.position ∧ sp.position ≤ E.destEnd := by
      obtain ⟨hw1, hw2⟩ := hwfE
      constructor <;> (rw [hq]; omega)
    rw [destToSrc_of_unique hEmem hqCov (unique_cover_of_disjoint hd1 hEmem hqCov)]
    rfl

/-- Witness for the amended claim C3 on concrete maps. -/
theorem merge_matches_composition_witness :
    ∃ merged,
      SrcMap.merge ⟨"d1", [⟨"a", 0, 5, 0, 5⟩]⟩ ⟨"d2", [⟨"d1", 1, 3, 0, 2⟩]⟩ =
        Except.ok merged ∧
      destToSrc 1 merged.entries =
        destToSrc (SrcPosition.position ⟨"d1", 2⟩) [⟨"a", 0, 5, 0, 5⟩] ∧
      (destToSrc (SrcPosition.position ⟨"d1", 2⟩) [⟨"a", 0, 5, 0, 5⟩]).isSome :=
  merge_matches_composition ⟨"d1", [⟨"a", 0, 5, 0, 5⟩]⟩ ⟨"d2", [⟨"d1", 1, 3, 0, 2⟩]⟩
    (by decide) (by decide) (by decide) (by decide) (by decide) (by decide)
    1 ⟨"d1", 2⟩ (by decide)

/-- Counterexample for claim C3 as stated: when an entry of M2 straddles
the boundary between two entries of M1 (everything length preserving),
the merged map and the composition of the two maps disagree: at
destination position 1 the merged map answers source position 6 of
`"a"`, while mapping through M2 and then M1 answers position 11. -/
theorem merge_composition_counterexample :
    SrcMap.merge ⟨"d1", [⟨"a", 0, 5, 0, 5⟩, ⟨"a", 10, 15, 5, 10⟩]⟩
        ⟨"d2", [⟨"d1", 5, 8, 0, 3⟩]⟩ =
      Except.ok ⟨"d2", [⟨"a", 5, 13, 0, 3⟩]⟩ ∧
    destToSrc 1 [⟨"a", 5, 13, 0, 3⟩] = some ⟨"a", 6⟩ ∧
    destToSrc 1 [⟨"d1", 5, 8, 0, 3⟩] = some ⟨"d1", 6⟩ ∧
    destToSrc 6 [⟨"a", 0, 5, 0, 5⟩, ⟨"a", 10, 15, 5, 10⟩] = some ⟨"a", 11⟩ ∧
    (⟨"a", 6⟩ : SrcPosition) ≠ ⟨"a", 11⟩ := by
  refine ⟨rfl, by decide, by decide, by decide, by decide⟩

/-! ## Source-line diagnostics (ParserLogging.ts)

`srcLine` and `getStarts` are translated from
`packages/mini-parse/src/ParserLogging.ts`.  Source strings are
modelled as `List Char` so that positions are `Nat` indices.  The
`while` binary-search loop is modelled with explicit fuel (the fuel
passed by `srcLine` always suffices, as the claim proof shows). -/

/-- Positions following each newline of the source, starting the scan
at absolute position `i`: the model of
`[...src.matchAll(/\n/g)].map(m => m.index! + 1)`. -/
def lineStartsAux : List Char → Nat → List Nat
  | [], _ => []
  | c :: cs, i =>
    if c = '\n' then (i + 1) :: lineStartsAux cs (i + 1)
    else lineStartsAux cs (i + 1)

/-- Translation of `getStarts`'s array contents: newline-successor
positions with `0` unshifted at the front. -/
def lineStartsOf (src : List Char) : List Nat :=
  0 :: lineStartsAux src 0

/-- Translation of the binary-search `while` loop of `srcLine`
(ParserLogging.ts lines 62-69); `mid = (start + end) >> 1`. -/
def bsearchLoop (starts : List Nat) (pos : Nat) : Nat → Nat → Nat → Nat
  | 0, s, _ => s
  | fuel + 1, s, e =>
    if s + 1 < e then
      if starts.getD ((s + e) / 2) 0 ≤ pos then bsearchLoop starts pos fuel ((s + e) / 2) e
      else bsearchLoop starts pos fuel s ((s + e) / 2)
    else s

/-- Translation of lines 53-69 of `srcLine`: `start = 0`,
`end = starts.length - 1`, the `pos >= starts[end]` short circuit, then
the binary search. -/
def searchStart (starts : List Nat) (pos : Nat) : Nat :=
  if starts.getD (starts.length - 1) 0 ≤ pos then starts.length - 1
  else bsearchLoop starts pos starts.length 0 (starts.length - 1)

/-- Result record of `srcLine`. -/
structure SrcLineR where
  line : List Char
  linePos : Nat
  lineNum : Nat
deriving DecidableEq, Repr

/-- Translation of `starts[start + 1] || src.length`: an absent (or
zero, by JavaScript falsiness) next start falls back to the source
length. -/
def nextLineStart (starts : List Nat) (srcLen s : Nat) : Nat :=
  match starts.get? (s + 1) with
  | some v => if v = 0 then srcLen else v
  | none => srcLen

/-- Translation of line 72 of `srcLine`:
`src.slice(starts[start], starts[start + 1] || src.length)`, the line
text with a possible trailing newline. -/
def lineNlOf (src : List Char) (pos : Nat) : List Char :=
  (src.drop ((lineStartsOf src).getD (searchStart (lineStartsOf src) pos) 0)).take
    (nextLineStart (lineStartsOf src) src.length (searchStart (lineStartsOf src) pos) -
      (lineStartsOf src).getD (searchStart (lineStartsOf src) pos) 0)

/-- Translation of line 75 of `srcLine`: strip one trailing newline
from the sliced line. -/
def srcLineText (src : List Char) (pos : Nat) : List Char :=
  if (lineNlOf src pos).getLast? = some '\n' then (lineNlOf src pos).dropLast
  else lineNlOf src pos

/-- Translation of `srcLine` (ParserLogging.ts lines 50-78): find the
surrounding line starts, slice the line, strip one trailing newline,
and report the 1-based line number and the offset in the line. -/
def srcLine (src : List Char) (pos : Nat) : SrcLineR :=
  ⟨srcLineText src pos,
    pos - (lineStartsOf src).getD (searchStart (lineStartsOf src) pos) 0,
    searchStart (lineStartsOf src) pos + 1⟩

/-- Translation of `getStarts` together with the module-level
`startCache` map: the cache is passed and returned explicitly.  A hit
returns the memoized array unchanged; a miss computes the line starts
and appends them to the cache (JavaScript `Map.set` appends in
insertion order). -/
def getStartsC (cache : List (List Char × List Nat)) (src : List Char) :
    List Nat × List (List Char × List Nat) :=
  match cache.find? (fun kv => kv.1 = src) with
  | some kv => (kv.2, cache)
  | none => (lineStartsOf src, cache ++ [(src, lineStartsOf src)])

/-- Specification-side line start: the position after the last newline
strictly before `pos` (i.e. `pos` minus the run of non-newline
characters just before it). -/
def lineStartSpec (src : List Char) (pos : Nat) : Nat :=
  pos - ((src.take pos).reverse.takeWhile (fun c => ¬ c = '\n')).length

/-- Specification-side line text: from the line start up to (not
including) the next newline or the end of the source. -/
def lineSpec (src : List Char) (pos : Nat) : List Char :=
  (src.drop (lineStartSpec src pos)).takeWhile (fun c => ¬ c = '\n')

/-- Specification-side 1-based line number: one more than the number of
newlines before `pos`. -/
def lineNumSpec (src : List Char) (pos : Nat) : Nat :=
  1 + (src.take pos).count '\n'

/-! ### Structure of the line-start array -/

/-- Elements of `lineStartsAux cs i` lie in `(i, i + cs.length]`. -/
theorem lineStartsAux_bounds :
    ∀ (cs : List Char) (i : Nat), ∀ k ∈ lineStartsAux cs i,
      i + 1 ≤ k ∧ k ≤ i + cs.length := by
  intro cs
  induction cs with
  | nil => intro i k hk; cases hk
  | cons c cs ih =>
    intro i k hk
    unfold lineStartsAux at hk
    by_cases hc : c = '\n'
    · rw [if_pos hc] at hk
      cases List.mem_cons.mp hk with
      | inl h => subst h; simp
      | inr h => have := ih (i + 1) k h; constructor <;> (simp at this ⊢; omega)
    · rw [if_neg hc] at hk
      have := ih (i + 1) k hk
      constructor <;> (simp at this ⊢; omega)

/-- Membership in `lineStartsAux`: exactly the successors of newline
positions. -/
theorem lineStartsAux_mem_iff :
    ∀ (cs : List Char) (i k : Nat),
      k ∈ lineStartsAux cs i ↔
        ∃ j, j < cs.length ∧ cs.getD j ' ' = '\n' ∧ k = i + j + 1 := by
  intro cs
  induction cs with
  | nil => intro i k; simp [lineStartsAux]
  | cons c cs ih =>
    intro i k
    unfold lineStartsAux
    by_cases hc : c = '\n'
    · rw [if_pos hc]
      simp only [List.mem_cons, ih]
      constructor
      · rintro (h | ⟨j, hj, hnl, hk⟩)
        · exact ⟨0, by simp, by simpa using hc, by omega⟩
        · exact ⟨j + 1, by simpa using hj, by simpa using hnl, by omega⟩
      · rintro ⟨j, hj, hnl, hk⟩
        cases j with
        | zero => left; omega
        | succ j =>
          right
          exact ⟨j, by simp at hj; omega, by simpa using hnl, by omega⟩
    · rw [if_neg hc]
      rw [ih]
      constructor
      · rintro ⟨j, hj, hnl, hk⟩
        exact ⟨j + 1, by simp; omega, by simpa using hnl, by omega⟩
      · rintro ⟨j, hj, hnl, hk⟩
        cases j with
        | zero => exact absurd (by simpa using hnl) hc
        | succ j =>
          exact ⟨j, by simp at hj; omega, by simpa using hnl, by omega⟩

/-- The line-start array is strictly increasing. -/
theorem lineStartsAux_pairwise :
    ∀ (cs : List Char) (i : Nat),
      List.Pairwise (· < ·) (lineStartsAux cs i) := by
  intro cs
  induction cs with
  | nil => intro i; exact List.Pairwise.nil
  | cons c cs ih =>
    intro i
    unfold lineStartsAux
    by_cases hc : c = '\n'
    · rw [if_pos hc]
      exact List.Pairwise.cons
        (fun k hk => by have := (lineStartsAux_bounds cs (i + 1) k hk).1; omega)
        (ih (i + 1))
    · rw [if_neg hc]; exact ih (i + 1)

/-- The full `lineStartsOf` array is strictly increasing. -/
theorem lineStartsOf_pairwise (src : List Char) :
    List.Pairwise (· < ·) (lineStartsOf src) :=
  List.Pairwise.cons
    (fun k hk => by have := (lineStartsAux_bounds src 0 k hk).1; omega)
    (lineStartsAux_pairwise src 0)

/-- Membership in `lineStartsOf`. -/
theorem lineStartsOf_mem_iff (src : List Char) (k : Nat) :
    k ∈ lineStartsOf src ↔
      k = 0 ∨ (1 ≤ k ∧ k ≤ src.length ∧ src.getD (k - 1) ' ' = '\n') := by
  unfold lineStartsOf
  rw [List.mem_cons, lineStartsAux_mem_iff]
  constructor
  · rintro (h | ⟨j, hj, hnl, hk⟩)
    · left; exact h
    · right
      refine ⟨by omega, by omega, ?_⟩
      have : k - 1 = j := by omega
      rw [this]; exact hnl
  · rintro (h | ⟨h1, h2, h3⟩)
    · left; exact h
    · right
      exact ⟨k - 1, by omega, h3, by omega⟩

/-- Counting the elements of `lineStartsAux` up to a bound counts the
newlines of the corresponding prefix. -/
theorem lineStartsAux_countP :
    ∀ (cs : List Char) (i pos : Nat), pos ≤ cs.length →
      (lineStartsAux cs i).countP (fun k => k ≤ i + pos) =
        (cs.take pos).count '\n' := by
  intro cs
  induction cs with
  | nil =>
    intro i pos h
    have hz : pos = 0 := by simpa using h
    subst hz
    simp [lineStartsAux]
  | cons c cs ih =>
    intro i pos hpos
    cases pos with
    | zero =>
      simp only [List.take_zero, List.count_nil]
      apply List.countP_eq_zero.mpr
      intro k hk
      have hb := (lineStartsAux_bounds (c :: cs) i k hk).1
      simp only [Nat.add_zero, decide_eq_true_eq]
      omega
    | succ q =>
      have hq : q ≤ cs.length := by simpa using hpos
      have harith : i + (q + 1) = i + 1 + q := by omega
      unfold lineStartsAux
      by_cases hc : c = '\n'
      · rw [if_pos hc, List.countP_cons, List.take_succ_cons, List.count_cons]
        simp only [harith]
        rw [ih (i + 1) q hq]
        simp [hc]
      · rw [if_neg hc, List.take_succ_cons, List.count_cons]
        simp only [harith]
        rw [ih (i + 1) q hq]
        simp [hc]

/-- Counting the full line-start array up to `pos` counts the prefix
newlines, plus one for the leading zero. -/
theorem lineStartsOf_countP (src : List Char) (pos : Nat) (h : pos ≤ src.length) :
    (lineStartsOf src).countP (fun k => k ≤ pos) =
      1 + (src.take pos).count '\n' := by
  unfold lineStartsOf
  rw [List.countP_cons]
  have := lineStartsAux_countP src 0 pos h
  simp only [Nat.zero_add] at this
  rw [this]
  simp
  omega

/-! ### Generic helpers for sorted lists and `takeWhile` -/

/-- A strictly increasing list is monotone under `getD`. -/
theorem pairwise_getD_mono {l : List Nat} (h : List.Pairwise (· < ·) l)
    {a b : Nat} (hab : a ≤ b) (hb : b < l.length) :
    l.getD a 0 ≤ l.getD b 0 := by
  rcases Nat.eq_or_lt_of_le hab with rfl | hlt
  · exact Nat.le_refl _
  · have := List.pairwise_iff_getElem.mp h a b (by omega) hb hlt
    rw [List.getD_eq_getElem _ _ (by omega : a < l.length),
      List.getD_eq_getElem _ _ hb]
    omega

/-- A `getD` at a valid index is a member. -/
theorem getD_mem {l : List Nat} {s : Nat} (h : s < l.length) :
    l.getD s 0 ∈ l := by
  rw [List.getD_eq_getElem _ _ h]
  exact List.getElem_mem h

/-- In a strictly increasing list, counting elements `≤ pos` when index
`s` holds a value `≤ pos` and index `s + 1` (if any) exceeds `pos`
yields `s + 1`. -/
theorem sorted_countP (pos : Nat) :
    ∀ (l : List Nat) (s : Nat), List.Pairwise (· < ·) l → s < l.length →
      l.getD s 0 ≤ pos → (s + 1 = l.length ∨ pos < l.getD (s + 1) 0) →
      l.countP (fun k => k ≤ pos) = s + 1 := by
  intro l
  induction l with
  | nil => intro s _ hs; simp at hs
  | cons x xs ih =>
    intro s hpw hs hle hnext
    rw [List.countP_cons]
    cases s with
    | zero =>
      have hx : x ≤ pos := by simpa using hle
      have hzero : xs.countP (fun k => decide (k ≤ pos)) = 0 := by
        apply List.countP_eq_zero.mpr
        intro k hk
        simp only [decide_eq_true_eq, Nat.not_le]
        rcases hnext with h | h
        · exfalso
          have : xs.length = 0 := by simpa using h.symm
          rw [List.length_eq_zero] at this
          rw [this] at hk
          cases hk
        · have hySome : xs.getD 0 0 ≤ k := by
            cases xs with
            | nil => cases hk
            | cons y ys =>
              rw [List.getD_cons_zero]
              cases List.mem_cons.mp hk with
              | inl h' => omega
              | inr h' =>
                have := (List.pairwise_cons.mp (List.pairwise_cons.mp hpw).2).1 k h'
                omega
          have : pos < xs.getD 0 0 := by simpa using h
          omega
      rw [hzero, if_pos (by simpa using hx)]
    | succ t =>
      have ht : t < xs.length := by simpa using hs
      have hle' : xs.getD t 0 ≤ pos := by simpa using hle
      have hx : x ≤ pos := by
        have hmem : xs.getD t 0 ∈ xs := getD_mem ht
        have := (List.pairwise_cons.mp hpw).1 _ hmem
        omega
      have hnext' : t + 1 = xs.length ∨ pos < xs.getD (t + 1) 0 := by
        rcases hnext with h | h
        · left; simpa using h
        · right; simpa using h
      rw [ih t (List.pairwise_cons.mp hpw).2 ht hle' hnext',
        if_pos (by simpa using hx)]

/-- Invariant of the binary-search loop: given enough fuel and a
bracketing interval, the result `r` satisfies
`starts[r] ≤ pos < starts[r+1]`. -/
theorem bsearchLoop_spec (starts : List Nat) (pos : Nat) :
    ∀ (fuel s e : Nat), e - s ≤ fuel → s < e →
      starts.getD s 0 ≤ pos → pos < starts.getD e 0 →
      s ≤ bsearchLoop starts pos fuel s e ∧
        bsearchLoop starts pos fuel s e + 1 ≤ e ∧
        starts.getD (bsearchLoop starts pos fuel s e) 0 ≤ pos ∧
        pos < starts.getD (bsearchLoop starts pos fuel s e + 1) 0 := by
  intro fuel
  induction fuel with
  | zero => intro s e hf hse _ _; omega
  | succ fuel ih =>
    intro s e hf hse hs he
    unfold bsearchLoop
    by_cases hlt : s + 1 < e
    · rw [if_pos hlt]
      have hm1 : s < (s + e) / 2 := by omega
      have hm2 : (s + e) / 2 < e := by omega
      by_cases hmle : starts.getD ((s + e) / 2) 0 ≤ pos
      · rw [if_pos hmle]
        obtain ⟨ha, hb, hc, hd⟩ := ih ((s + e) / 2) e (by omega) hm2 hmle he
        exact ⟨by omega, hb, hc, hd⟩
      · rw [if_neg hmle]
        obtain ⟨ha, hb, hc, hd⟩ := ih s ((s + e) / 2) (by omega) hm1 hs (by omega)
        exact ⟨ha, by omega, hc, hd⟩
    · rw [if_neg hlt]
      have he' : e = s + 1 := by omega
      exact ⟨Nat.le_refl _, by omega, hs, he' ▸ he⟩

/-- The index chosen by `searchStart` brackets `pos` between
consecutive line starts (or is the final index). -/
theorem searchStart_spec (starts : List Nat) (pos : Nat)
    (hlen : 1 ≤ starts.length) (h0 : starts.getD 0 0 = 0) :
    starts.getD (searchStart starts pos) 0 ≤ pos ∧
      searchStart starts pos < starts.length ∧
      (searchStart starts pos + 1 = starts.length ∨
        pos < starts.getD (searchStart starts pos + 1) 0) := by
  unfold searchStart
  by_cases hsc : starts.getD (starts.length - 1) 0 ≤ pos
  · rw [if_pos hsc]
    exact ⟨hsc, by omega, Or.inl (by omega)⟩
  · rw [if_neg hsc]
    have hne : 0 < starts.length - 1 := by
      by_contra hcon
      have hz : starts.length - 1 = 0 := by omega
      rw [hz, h0] at hsc
      omega
    obtain ⟨ha, hb, hc, hd⟩ := bsearchLoop_spec starts pos starts.length 0
      (starts.length - 1) (by omega) hne (by rw [h0]; omega) (by omega)
    exact ⟨hc, by omega, Or.inr hd⟩

/-- Every sampled index inside `takeWhile`'s result satisfies the
predicate. -/
theorem takeWhile_getD_true {α : Type _} (p : α → Bool) (d : α) :
    ∀ (l : List α) (i : Nat), i < (l.takeWhile p).length →
      p (l.getD i d) = true := by
  intro l
  induction l with
  | nil => intro i h; simp [List.takeWhile] at h
  | cons x xs ih =>
    intro i h
    rw [List.takeWhile_cons] at h
    by_cases hx : p x = true
    · rw [if_pos hx] at h
      cases i with
      | zero => simpa using hx
      | succ j =>
        rw [List.getD_cons_succ]
        exact ih j (by simpa using h)
    · rw [if_neg hx] at h
      simp at h

/-- `takeWhile` stops at the first failing element. -/
theorem takeWhile_getD_stop {α : Type _} (p : α → Bool) (d : α) :
    ∀ (l : List α), (l.takeWhile p).length < l.length →
      p (l.getD (l.takeWhile p).length d) = false := by
  intro l
  induction l with
  | nil => intro h; simp at h
  | cons x xs ih =>
    intro h
    rw [List.takeWhile_cons]
    rw [List.takeWhile_cons] at h
    by_cases hx : p x = true
    · rw [if_pos hx] at h ⊢
      simp only [List.length_cons, List.getD_cons_succ]
      exact ih (by simpa using h)
    · rw [if_neg hx] at h ⊢
      simpa using hx

/-- The `takeWhile` result is never longer than the list. -/
theorem takeWhile_length_le {α : Type _} (p : α → Bool) :
    ∀ (l : List α), (l.takeWhile p).length ≤ l.length := by
  intro l
  induction l with
  | nil => simp [List.takeWhile]
  | cons x xs ih =>
    rw [List.takeWhile_cons]
    by_cases hx : p x = true
    · rw [if_pos hx]; simpa using ih
    · rw [if_neg hx]; simp

/-- `takeWhile` equals `take n` at the first failure index `n`. -/
theorem takeWhile_eq_take_of {α : Type _} (p : α → Bool) (d : α) :
    ∀ (l : List α) (n : Nat), n ≤ l.length →
      (∀ i, i < n → p (l.getD i d) = true) →
      (n = l.length ∨ p (l.getD n d) = false) →
      l.takeWhile p = l.take n := by
  intro l
  induction l with
  | nil =>
    intro n hn _ _
    have : n = 0 := by simpa using hn
    subst this
    rfl
  | cons x xs ih =>
    intro n hn hall hstop
    cases n with
    | zero =>
      rcases hstop with h | h
      · simp at h
      · rw [List.takeWhile_cons, if_neg (by simpa using h)]
        rfl
    | succ m =>
      have hx : p x = true := hall 0 (by omega)
      rw [List.takeWhile_cons, if_pos hx, List.take_succ_cons]
      congr 1
      refine ih m (by simpa using hn) (fun i hi => ?_) ?_
      · have := hall (i + 1) (by omega)
        simpa using this
      · rcases hstop with h | h
        · left; simpa using h
        · right; simpa using h

/-- Indexing the reversed prefix of the source. -/
theorem reverse_take_getD (src : List Char) (pos i : Nat) (d : Char)
    (hp : pos ≤ src.length) (hi : i < pos) :
    ((src.take pos).reverse).getD i d = src.getD (pos - 1 - i) d := by
  have h1 : (src.take pos).length = pos := by
    rw [List.length_take]; omega
  have h2 : i < (src.take pos).reverse.length := by
    rw [List.length_reverse, h1]; exact hi
  rw [List.getD_eq_getElem _ _ h2, List.getElem_reverse,
    List.getElem_take, List.getD_eq_getElem _ _ (by omega : pos - 1 - i < src.length)]
  congr 1
  omega

/-- The specification-side line start is at most `pos`, is a line
start, and no newline occurs between it and `pos`. -/
theorem lineStartSpec_facts (src : List Char) (pos : Nat) (hp : pos ≤ src.length) :
    lineStartSpec src pos ≤ pos ∧
      lineStartSpec src pos ∈ lineStartsOf src ∧
      (∀ u, lineStartSpec src pos ≤ u → u < pos → ¬ src.getD u ' ' = '\n') := by
  have hRlen : (src.take pos).reverse.length = pos := by
    rw [List.length_reverse, List.length_take]; omega
  have htle : ((src.take pos).reverse.takeWhile (fun c => ¬ c = '\n')).length ≤ pos := by
    have h := takeWhile_length_le (fun c => ¬ c = '\n') (src.take pos).reverse
    rw [hRlen] at h
    exact h
  refine ⟨by unfold lineStartSpec; omega, ?_, ?_⟩
  · unfold lineStartSpec
    rw [lineStartsOf_mem_iff]
    rcases Nat.lt_or_ge ((src.take pos).reverse.takeWhile (fun c => ¬ c = '\n')).length pos
      with hlt | hge
    · right
      have hstop := takeWhile_getD_stop (fun c => ¬ c = '\n') ' '
        (src.take pos).reverse (by rw [hRlen]; exact hlt)
      have hnl : ((src.take pos).reverse).getD
          ((src.take pos).reverse.takeWhile (fun c => ¬ c = '\n')).length ' ' = '\n' := by
        simpa using hstop
      rw [reverse_take_getD src pos _ ' ' hp hlt] at hnl
      refine ⟨by omega, by omega, ?_⟩
      have harith : pos - ((src.take pos).reverse.takeWhile (fun c => ¬ c = '\n')).length - 1 =
          pos - 1 - ((src.take pos).reverse.takeWhile (fun c => ¬ c = '\n')).length := by
        omega
      rw [harith]
      exact hnl
    · left; omega
  · intro u hu1 hu2
    unfold lineStartSpec at hu1
    have hipos : pos - 1 - u < ((src.take pos).reverse.takeWhile (fun c => ¬ c = '\n')).length := by
      omega
    have := takeWhile_getD_true (fun c => ¬ c = '\n') ' ' (src.take pos).reverse
      (pos - 1 - u) hipos
    rw [reverse_take_getD src pos _ ' ' hp (by omega)] at this
    have harith : pos - 1 - (pos - 1 - u) = u := by omega
    rw [harith] at this
    simpa using this

/-- Maximality: every line start at or before `pos` is at most the
specification-side line start. -/
theorem lineStartSpec_max (src : List Char) (pos : Nat) (hp : pos ≤ src.length) :
    ∀ k ∈ lineStartsOf src, k ≤ pos → k ≤ lineStartSpec src pos := by
  intro k hk hkpos
  obtain ⟨-, -, hno⟩ := lineStartSpec_facts src pos hp
  rw [lineStartsOf_mem_iff] at hk
  rcases hk with h | ⟨h1, h2, h3⟩
  · omega
  · by_contra hgt
    push_neg at hgt
    exact hno (k - 1) (by omega) (by omega) h3

/-- The line start found by the binary search is the specification-side
line start. -/
theorem searchStart_getD_eq (src : List Char) (pos : Nat) (hp : pos ≤ src.length) :
    (lineStartsOf src).getD (searchStart (lineStartsOf src) pos) 0 =
      lineStartSpec src pos := by
  obtain ⟨hle, hlt, hnext⟩ := searchStart_spec (lineStartsOf src) pos
    (by unfold lineStartsOf; simp) (by unfold lineStartsOf; rw [List.getD_cons_zero])
  obtain ⟨hLle, hLmem, -⟩ := lineStartSpec_facts src pos hp
  have hpw := lineStartsOf_pairwise src
  have h1 : (lineStartsOf src).getD (searchStart (lineStartsOf src) pos) 0 ≤
      lineStartSpec src pos :=
    lineStartSpec_max src pos hp _ (getD_mem hlt) hle
  obtain ⟨j, hj, hjL⟩ := List.mem_iff_getElem.mp hLmem
  have hjD : (lineStartsOf src).getD j 0 = lineStartSpec src pos := by
    rw [List.getD_eq_getElem _ _ hj]; exact hjL
  have h2 : lineStartSpec src pos ≤
      (lineStartsOf src).getD (searchStart (lineStartsOf src) pos) 0 := by
    rcases Nat.lt_or_ge (searchStart (lineStartsOf src) pos) j with hlt' | hge
    · exfalso
      rcases hnext with hlen' | hpos'
      · omega
      · have := pairwise_getD_mono hpw (by omega : searchStart (lineStartsOf src) pos + 1 ≤ j) hj
        omega
    · rw [← hjD]
      exact pairwise_getD_mono hpw hge hlt
  omega

/-- Strict monotonicity of `getD` on a strictly increasing list. -/
theorem pairwise_getD_lt {l : List Nat} (h : List.Pairwise (· < ·) l)
    {a b : Nat} (hab : a < b) (hb : b < l.length) :
    l.getD a 0 < l.getD b 0 := by
  have := List.pairwise_iff_getElem.mp h a b (by omega) hb hab
  rw [List.getD_eq_getElem _ _ (by omega : a < l.length),
    List.getD_eq_getElem _ _ hb]
  omega

/-- `getD` after `take` samples the original list. -/
theorem getD_take (l : List Char) (m i : Nat) (d : Char)
    (h : i < m) (h2 : i < l.length) :
    (l.take m).getD i d = l.getD i d := by
  have hi : i < (l.take m).length := by rw [List.length_take]; omega
  rw [List.getD_eq_getElem _ _ hi, List.getElem_take, List.getD_eq_getElem _ _ h2]

/-- `getD` after `drop` samples the original list. -/
theorem getD_drop (src : List Char) (a i : Nat) (d : Char)
    (h : a + i < src.length) :
    (src.drop a).getD i d = src.getD (a + i) d := by
  have hi : i < (src.drop a).length := by rw [List.length_drop]; omega
  rw [List.getD_eq_getElem _ _ hi, List.getElem_drop,
    List.getD_eq_getElem _ _ h]

/-- The stripped line text computed by `srcLine` equals the
specification-side line. -/
theorem srcLineText_eq (src : List Char) (pos : Nat) (hp : pos ≤ src.length) :
    srcLineText src pos = lineSpec src pos := by
  obtain ⟨hle, hlt, hnext⟩ := searchStart_spec (lineStartsOf src) pos
    (by unfold lineStartsOf; simp)
    (by unfold lineStartsOf; rw [List.getD_cons_zero])
  have hpw := lineStartsOf_pairwise src
  have hLspec := searchStart_getD_eq src pos hp
  set starts := lineStartsOf src with hstarts
  set s := searchStart starts pos with hsdef
  set L := starts.getD s 0 with hLdef
  have hLpos : L ≤ pos := hle
  have hlineSpec : lineSpec src pos = (src.drop L).takeWhile (fun c => ¬ c = '\n') := by
    unfold lineSpec
    rw [← hLspec]
  by_cases hcase : s + 1 < starts.length
  · -- a further line start exists
    set N := starts.getD (s + 1) 0 with hNdef
    have hLN : L < N := pairwise_getD_lt hpw (by omega) hcase
    have hNmem : N ∈ starts := getD_mem hcase
    have hNfacts := (lineStartsOf_mem_iff src N).mp (hstarts ▸ hNmem)
    have hNnl : src.getD (N - 1) ' ' = '\n' := by
      rcases hNfacts with h | ⟨h1, h2, h3⟩
      · omega
      · exact h3
    have hNlen : N ≤ src.length := by
      rcases hNfacts with h | ⟨h1, h2, h3⟩
      · omega
      · exact h2
    have hnextN : nextLineStart starts src.length s = N := by
      unfold nextLineStart
      rw [List.get?_eq_getElem?, List.getElem?_eq_getElem hcase]
      have hNg : starts[s + 1] = N := (List.getD_eq_getElem starts 0 hcase).symm
      rw [hNg]
      dsimp only
      rw [if_neg (by omega)]
    have hnoline : ∀ u, L ≤ u → u < N - 1 → ¬ src.getD u ' ' = '\n' := by
      intro u hu1 hu2 hnl
      have hmem : u + 1 ∈ starts :=
        hstarts ▸ (lineStartsOf_mem_iff src (u + 1)).mpr
          (Or.inr ⟨by omega, by omega, by simpa using hnl⟩)
      obtain ⟨j, hj, hjv⟩ := List.mem_iff_getElem.mp hmem
      have hjD : starts.getD j 0 = u + 1 := by
        rw [List.getD_eq_getElem _ _ hj]; exact hjv
      rcases le_or_lt j s with hjs | hjs
      · have := pairwise_getD_mono hpw hjs hlt
        omega
      · have := pairwise_getD_mono hpw (show s + 1 ≤ j by omega) hj
        omega
    have hlineNl : lineNlOf src pos = (src.drop L).take (N - L) := by
      show (src.drop L).take (nextLineStart starts src.length s - L) =
        (src.drop L).take (N - L)
      rw [hnextN]
    have hlen_nl : (lineNlOf src pos).length = N - L := by
      rw [hlineNl, List.length_take, List.length_drop]
      omega
    have hidx : N - L - 1 < (lineNlOf src pos).length := by rw [hlen_nl]; omega
    have hlast : (lineNlOf src pos).getLast? = some '\n' := by
      rw [List.getLast?_eq_getElem?, hlen_nl, List.getElem?_eq_getElem hidx]
      have hD : (lineNlOf src pos).getD (N - L - 1) ' ' = '\n' := by
        rw [hlineNl,
          getD_take _ _ _ _ (by omega) (by rw [List.length_drop]; omega),
          getD_drop src L (N - L - 1) ' ' (by omega)]
        have h2 : L + (N - L - 1) = N - 1 := by omega
        rw [h2]
        exact hNnl
      rw [List.getD_eq_getElem _ _ hidx] at hD
      rw [hD]
    rw [srcLineText, if_pos hlast, hlineSpec]
    rw [takeWhile_eq_take_of (fun c => ¬ c = '\n') ' ' (src.drop L) (N - 1 - L)
      (by rw [List.length_drop]; omega)
      (fun i hi => by
        rw [getD_drop src L i ' ' (by omega)]
        simpa using hnoline (L + i) (by omega) (by omega))
      (Or.inr (by
        rw [getD_drop src L (N - 1 - L) ' ' (by omega)]
        have : L + (N - 1 - L) = N - 1 := by omega
        rw [this, hNnl]
        simp))]
    rw [List.dropLast_eq_take, hlen_nl, hlineNl, List.take_take]
    congr 1
    omega
  · -- the chosen index is the last line start
    have hslen : s + 1 = starts.length := by omega
    have hnextN : nextLineStart starts src.length s = src.length := by
      unfold nextLineStart
      rw [List.get?_eq_getElem?, List.getElem?_eq_none (by omega)]
    have hnoline : ∀ u, L ≤ u → u < src.length → ¬ src.getD u ' ' = '\n' := by
      intro u hu1 hu2 hnl
      have hmem : u + 1 ∈ starts :=
        hstarts ▸ (lineStartsOf_mem_iff src (u + 1)).mpr
          (Or.inr ⟨by omega, by omega, by simpa using hnl⟩)
      obtain ⟨j, hj, hjv⟩ := List.mem_iff_getElem.mp hmem
      have hjD : starts.getD j 0 = u + 1 := by
        rw [List.getD_eq_getElem _ _ hj]; exact hjv
      have := pairwise_getD_mono hpw (show j ≤ s by omega) hlt
      omega
    have hlineNl : lineNlOf src pos = src.drop L := by
      show (src.drop L).take (nextLineStart starts src.length s - L) = src.drop L
      rw [hnextN]
      have hlen : (src.drop L).length = src.length - L := List.length_drop L src
      rw [← hlen, List.take_length]
    rcases Nat.lt_or_ge L src.length with hLlt | hLge
    · -- the final line is nonempty and has no trailing newline
      have hlenNl : (lineNlOf src pos).length = src.length - L := by
        rw [hlineNl, List.length_drop]
      have hidx : src.length - L - 1 < (lineNlOf src pos).length := by
        rw [hlenNl]; omega
      have hD : (lineNlOf src pos).getD (src.length - L - 1) ' ' =
          src.getD (src.length - 1) ' ' := by
        rw [hlineNl, getD_drop src L (src.length - L - 1) ' ' (by omega)]
        congr 1
        omega
      have hlastne : ¬ (lineNlOf src pos).getLast? = some '\n' := by
        rw [List.getLast?_eq_getElem?, hlenNl, List.getElem?_eq_getElem hidx]
        intro hcon
        have hchar : (lineNlOf src pos).getD (src.length - L - 1) ' ' = '\n' := by
          rw [List.getD_eq_getElem _ ' ' hidx]
          exact Option.some.inj hcon
        rw [hD] at hchar
        exact hnoline (src.length - 1) (by omega) (by omega) hchar
      rw [srcLineText, if_neg hlastne, hlineNl, hlineSpec]
      rw [takeWhile_eq_take_of (fun c => ¬ c = '\n') ' ' (src.drop L) (src.drop L).length
        (Nat.le_refl _)
        (fun i hi => by
          rw [List.length_drop] at hi
          rw [getD_drop src L i ' ' (by omega)]
          simpa using hnoline (L + i) (by omega) (by omega))
        (Or.inl rfl)]
      rw [List.take_length]
    · -- the position sits on the empty final line
      have hnil : lineNlOf src pos = [] := by
        rw [hlineNl]
        exact List.drop_eq_nil_of_le hLge
      rw [srcLineText, hnil, hlineSpec]
      have hnil2 : src.drop L = [] := List.drop_eq_nil_of_le hLge
      rw [hnil2]
      rfl

/-- Claim C9: for every source and every position `0 ≤ p ≤ src.length`,
`srcLine` returns the text of the line containing `p` without its
trailing newline, the 1-based line number (one more than the number of
newlines before `p`), and `p` minus the position of the line's start;
and `getStarts` memoizes the line-start array per source: with a
well-formed cache, a call returns the line starts of the source and a
repeated call on the resulting cache returns the identical memoized
array and leaves the cache unchanged. -/
theorem srcLine_matches_spec :
    (∀ (src : List Char) (pos : Nat), pos ≤ src.length →
      srcLine src pos =
        ⟨lineSpec src pos, pos - lineStartSpec src pos, lineNumSpec src pos⟩) ∧
    (∀ (cache : List (List Char × List Nat)) (src : List Char),
      (∀ kv ∈ cache, kv.2 = lineStartsOf kv.1) →
      (getStartsC cache src).1 = lineStartsOf src ∧
        getStartsC (getStartsC cache src).2 src = getStartsC cache src ∧
        (∀ kv ∈ (getStartsC cache src).2, kv.2 = lineStartsOf kv.1)) := by
  constructor
  · intro src pos hp
    obtain ⟨hle, hlt, hnext⟩ := searchStart_spec (lineStartsOf src) pos
      (by unfold lineStartsOf; simp)
      (by unfold lineStartsOf; rw [List.getD_cons_zero])
    have hcount := sorted_countP pos (lineStartsOf src) (searchStart (lineStartsOf src) pos)
      (lineStartsOf_pairwise src) hlt hle hnext
    have hcount2 := lineStartsOf_countP src pos hp
    have hnum : searchStart (lineStartsOf src) pos + 1 = lineNumSpec src pos := by
      unfold lineNumSpec
      omega
    unfold srcLine
    rw [srcLineText_eq src pos hp, searchStart_getD_eq src pos hp, hnum]
  · intro cache src hwf
    cases hfind : cache.find? (fun kv => kv.1 = src) with
    | some kv =>
      have hkey : kv.1 = src := by simpa using List.find?_some hfind
      have hval : kv.2 = lineStartsOf src := by
        rw [hwf kv (List.mem_of_find?_eq_some hfind), hkey]
      have hg : getStartsC cache src = (kv.2, cache) := by
        unfold getStartsC
        rw [hfind]
      refine ⟨by rw [hg]; exact hval, ?_, ?_⟩
      · rw [hg]
        exact hg
      · rw [hg]
        exact hwf
    | none =>
      have hfind2 : (cache ++ [(src, lineStartsOf src)]).find?
          (fun kv => kv.1 = src) = some (src, lineStartsOf src) := by
        rw [List.find?_append, hfind]
        simp [List.find?]
      have hg : getStartsC cache src =
          (lineStartsOf src, cache ++ [(src, lineStartsOf src)]) := by
        unfold getStartsC
        rw [hfind]
      refine ⟨by rw [hg], ?_, ?_⟩
      · rw [hg]
        unfold getStartsC
        rw [hfind2]
      · rw [hg]
        intro kv hkv
        rcases List.mem_append.mp hkv with h | h
        · exact hwf kv h
        · rcases List.mem_cons.mp h with h' | h'
          · rw [h']
          · cases h'

/-- Witness for claim C9 on a concrete source and position. -/
theorem srcLine_matches_spec_witness :
    srcLine "ab\ncd".toList 4 =
        ⟨lineSpec "ab\ncd".toList 4, 4 - lineStartSpec "ab\ncd".toList 4,
          lineNumSpec "ab\ncd".toList 4⟩ ∧
      ((getStartsC [] "ab\ncd".toList).1 = lineStartsOf "ab\ncd".toList ∧
        getStartsC (getStartsC [] "ab\ncd".toList).2 "ab\ncd".toList =
          getStartsC [] "ab\ncd".toList ∧
        (∀ kv ∈ (getStartsC [] "ab\ncd".toList).2, kv.2 = lineStartsOf kv.1)) :=
  ⟨srcLine_matches_spec.1 "ab\ncd".toList 4 (by decide),
    srcLine_matches_spec.2 [] "ab\ncd".toList (by intro kv hkv; cases hkv)⟩

/-! ## Lexer matcher stack (MatchingLexer.ts)

`pushMatcher`, `popMatcher`, `withMatcher`, `withIgnore` and
`withMatcherIgnore` are translated from the `matchingLexer` closure
state.  A `TokenMatcher` is value state `{mid, src, pos}` (an identity,
the bound source and the cursor); `matcher.start(src, pos)` rebinds
source and cursor, `matcher.position(p)` sets the cursor.  The client
function `fn` is a state transformer that may throw, modelled as
returning `Except` together with the lexer state at exit.  Note the
source runs `fn` between `pushMatcher` and `popMatcher` with no
`try`/`finally`. -/

structure TokenMatcher where
  mid : Nat
  src : String
  pos : Nat
deriving DecidableEq, Repr

/-- Translation of `TokenMatcher.start(src, position)`. -/
def matcherStart (m : TokenMatcher) (src : String) (pos : Nat) : TokenMatcher :=
  { m with src := src, pos := pos }

/-- The mutable closure state of `matchingLexer`: current matcher,
current ignore set, and the frame stack. -/
structure LexState where
  src : String
  matcher : TokenMatcher
  ignore : List String
  stack : List (TokenMatcher × List String)
deriving DecidableEq, Repr

/-- Translation of `pushMatcher` (lines 53-59): save the current frame,
start the new matcher at the current position. -/
def pushMatcher (newMatcher : TokenMatcher) (newIgnore : List String)
    (st : LexState) : LexState :=
  { st with
    stack := (st.matcher, st.ignore) :: st.stack,
    matcher := matcherStart newMatcher st.src st.matcher.pos,
    ignore := newIgnore }

/-- Translation of `popMatcher` (lines 61-72): restore the saved frame
and re-align the restored matcher to the inner matcher's position; on
an empty stack it logs "too many pops" and leaves the state alone. -/
def popMatcher (st : LexState) : LexState :=
  match st.stack with
  | [] => st
  | (m, ig) :: rest =>
    { st with
      stack := rest,
      matcher := { m with pos := st.matcher.pos },
      ignore := ig }

/-- Translation of `withMatcherIgnore` (lines 89-98): push, run `fn`,
pop, return.  There is no `try`/`finally`, so when `fn` throws the pop
does not happen and the exception propagates with the state `fn` left
behind. -/
def withMatcherIgnore {ε τ : Type _} (tokenMatcher : TokenMatcher)
    (ignore : List String) (fn : LexState → Except ε τ × LexState)
    (st : LexState) : Except ε τ × LexState :=
  let st1 := pushMatcher tokenMatcher ignore st
  let out := fn st1
  match out.1 with
  | Except.ok v => (Except.ok v, popMatcher out.2)
  | Except.error e => (Except.error e, out.2)

/-- Translation of `withMatcher` (lines 81-83): keep the current ignore
set. -/
def withMatcher {ε τ : Type _} (newMatcher : TokenMatcher)
    (fn : LexState → Except ε τ × LexState) (st : LexState) :
    Except ε τ × LexState :=
  withMatcherIgnore newMatcher st.ignore fn st

/-- Translation of `withIgnore` (lines 85-87): keep the current
matcher. -/
def withIgnore {ε τ : Type _} (newIgnore : List String)
    (fn : LexState → Except ε τ × LexState) (st : LexState) :
    Except ε τ × LexState :=
  withMatcherIgnore st.matcher newIgnore fn st

/-! ### Claim C5: scoped matcher restoration -/

/-- Amended claim C5: when `fn` returns normally and leaves the frame
stack as it found it, `withMatcher(m, fn)` (and `withIgnore`, both via
`withMatcherIgnore`) restores the outer matcher and ignore set, and the
restored matcher's position equals the inner matcher's position at
exit.  When `fn` throws, nothing is restored: there is no
`try`/`finally` in `withMatcherIgnore`, so the pushed frame stays on
the stack and the inner matcher stays active (see the
counterexample). -/
theorem withMatcherIgnore_restores {ε τ : Type _} (tm : TokenMatcher)
    (ig : List String) (fn : LexState → Except ε τ × LexState) (st : LexState)
    (v : τ) (st2 : LexState)
    (hrun : fn (pushMatcher tm ig st) = (Except.ok v, st2))
    (hstack : st2.stack = (pushMatcher tm ig st).stack) :
    withMatcherIgnore tm ig fn st =
      (Except.ok v,
        { st2 with
          matcher := { st.matcher with pos := st2.matcher.pos },
          ignore := st.ignore,
          stack := st.stack }) := by
  simp only [withMatcherIgnore]
  rw [hrun]
  unfold popMatcher
  rw [hstack]
  rfl

/-- Witness for the amended claim C5: a concrete inner run that moves
the cursor to 7 is restored to the outer matcher at position 7. -/
theorem withMatcherIgnore_restores_witness :
    withMatcherIgnore (ε := String) ⟨2, "", 0⟩ ["comment"]
        (fun s => (Except.ok 42, { s with matcher := { s.matcher with pos := 7 } }))
        ⟨"src", ⟨1, "src", 3⟩, ["ws"], []⟩ =
      (Except.ok 42,
        { src := "src", matcher := ⟨1, "src", 7⟩, ignore := ["ws"], stack := [] }) := by
  have h := withMatcherIgnore_restores (ε := String) ⟨2, "", 0⟩ ["comment"]
    (fun s => (Except.ok 42, { s with matcher := { s.matcher with pos := 7 } }))
    ⟨"src", ⟨1, "src", 3⟩, ["ws"], []⟩ 42
    { src := "src", matcher := ⟨2, "src", 7⟩, ignore := ["comment"],
      stack := [(⟨1, "src", 3⟩, ["ws"])] } rfl rfl
  exact h

/-- Counterexample for claim C5 as stated: when `fn` throws, the state
after `withMatcher(m, fn)` still has the inner matcher active and the
pushed frame on the stack — the outer matcher and ignore set are not
restored. -/
theorem withMatcher_throw_not_restored :
    (withMatcher (τ := Unit) ⟨2, "", 0⟩
        (fun s => (Except.error "boom", s))
        ⟨"src", ⟨1, "src", 3⟩, ["ws"], []⟩).2 =
      ⟨"src", ⟨2, "src", 3⟩, ["ws"], [(⟨1, "src", 3⟩, ["ws"])]⟩ ∧
    (⟨"src", ⟨2, "src", 3⟩, ["ws"], [(⟨1, "src", 3⟩, ["ws"])]⟩ : LexState).matcher ≠
      (⟨"src", ⟨1, "src", 3⟩, ["ws"], []⟩ : LexState).matcher ∧
    (⟨"src", ⟨2, "src", 3⟩, ["ws"], [(⟨1, "src", 3⟩, ["ws"])]⟩ : LexState).stack ≠
      (⟨"src", ⟨1, "src", 3⟩, ["ws"], []⟩ : LexState).stack := by
  refine ⟨rfl, by decide, by decide⟩

/-! ## `#extends`/`#importMerge` attachment (ParseModule.ts)

`matchMergeImports` and the part of `parseModule` that invokes it are
translated from `packages/linker/src/ParseModule.ts`.  Only the fields
the function reads are modelled: element kinds, the struct's
`importMerges` list, and the directive's `start` used by `srcLog`.
The in-place `next.importMerges.push(mergeElem)` becomes a functional
update of the element list, and each `srcLog` call is recorded as a
`(position, message)` pair. -/

structure ImportMergeElem where
  start : Nat
  name : String
deriving DecidableEq, Repr

/-- The element kinds `matchMergeImports` distinguishes. -/
inductive ParsedElem where
  | importMerge (m : ImportMergeElem)
  | exportElem (start : Nat)
  | strct (name : String) (importMerges : List ImportMergeElem)
  | other (kind : String)
deriving DecidableEq, Repr

/-- Translation of `findKind(parsed, "importMerge")`: the directives
with their indices. -/
def findMerges : List ParsedElem → Nat → List (ImportMergeElem × Nat)
  | [], _ => []
  | ParsedElem.importMerge m :: rest, i => (m, i) :: findMerges rest (i + 1)
  | _ :: rest, i => findMerges rest (i + 1)

/-- The `do/while` skip condition of `matchMergeImports`:
`next?.kind === "importMerge" || next?.kind === "export"`. -/
def skippedKind : ParsedElem → Bool
  | ParsedElem.importMerge _ => true
  | ParsedElem.exportElem _ => true
  | _ => false

/-- Translation of the `do { next = parsed[++i] } while (...)` loop:
the index of the first element after `i` that is neither an
`importMerge` nor an `export`, if any. -/
def scanPast (parsed : List ParsedElem) (i : Nat) : Option Nat :=
  match (parsed.drop (i + 1)).findIdx? (fun e => ¬ skippedKind e) with
  | some k => some (i + 1 + k)
  | none => none

/-- Translation of `next.importMerges.push(mergeElem)`: append the
directive to the struct at index `j`. -/
def pushMerge : List ParsedElem → Nat → ImportMergeElem → List ParsedElem
  | [], _, _ => []
  | e :: rest, 0, m =>
    (match e with
     | ParsedElem.strct n ms => ParsedElem.strct n (ms ++ [m])
     | x => x) :: rest
  | e :: rest, j + 1, m => e :: pushMerge rest j m

/-- Translation of `matchMergeImports` (ParseModule.ts lines 93-107):
attach each `importMerge` directive to the next struct (skipping
intervening `importMerge`/`export` elements) or log
`#extends not followed by a struct` at the directive's start. -/
def matchMergeImports (parsed : List ParsedElem) :
    List ParsedElem × List (Nat × String) :=
  (findMerges parsed 0).foldl
    (fun acc mi =>
      match scanPast acc.1 mi.2 with
      | some j =>
        match acc.1.get? j with
        | some (ParsedElem.strct _ _) => (pushMerge acc.1 j mi.1, acc.2)
        | _ => (acc.1, acc.2 ++ [(mi.1.start, "#extends not followed by a struct")])
      | none => (acc.1, acc.2 ++ [(mi.1.start, "#extends not followed by a struct")]))
    (parsed, [])

/-- Translation of the two `matchMergeImports(parsed, srcMap)` calls in
`parseModule` (ParseModule.ts lines 53 and 55); the code between them
reads but does not modify the element list. -/
def parseModuleMerges (parsed : List ParsedElem) :
    List ParsedElem × List (Nat × String) :=
  let r1 := matchMergeImports parsed
  let r2 := matchMergeImports r1.1
  (r2.1, r1.2 ++ r2.2)

/-! ### Claim C8: `#extends` attaches once / logs once -/

/-- A single `matchMergeImports` pass behaves as the claim describes:
one diagnostic when no struct follows, one attachment when one does
(shown here on the concrete inputs used below). -/
theorem matchMergeImports_single_pass :
    matchMergeImports [ParsedElem.importMerge ⟨5, "A"⟩] =
      ([ParsedElem.importMerge ⟨5, "A"⟩],
        [(5, "#extends not followed by a struct")]) ∧
    matchMergeImports
        [ParsedElem.importMerge ⟨0, "A"⟩, ParsedElem.exportElem 2,
          ParsedElem.strct "B" []] =
      ([ParsedElem.importMerge ⟨0, "A"⟩, ParsedElem.exportElem 2,
          ParsedElem.strct "B" [⟨0, "A"⟩]], []) := by
  refine ⟨rfl, rfl⟩

/-- Claim C8 is what the code intends but `parseModule` calls
`matchMergeImports` twice (ParseModule.ts lines 53 and 55), so on a
directive with no following struct the diagnostic is logged twice, and
on a directive followed by a struct the directive is appended to the
struct's `importMerges` twice. -/
theorem parseModule_double_merge :
    parseModuleMerges [ParsedElem.importMerge ⟨5, "A"⟩] =
      ([ParsedElem.importMerge ⟨5, "A"⟩],
        [(5, "#extends not followed by a struct"),
          (5, "#extends not followed by a struct")]) ∧
    parseModuleMerges
        [ParsedElem.importMerge ⟨0, "A"⟩, ParsedElem.strct "B" []] =
      ([ParsedElem.importMerge ⟨0, "A"⟩,
          ParsedElem.strct "B" [⟨0, "A"⟩, ⟨0, "A"⟩]], []) := by
  refine ⟨rfl, rfl⟩

/-! ## Import/export parameter matching

The repository holds two traversal generations.  The historical one
(`src/src/TraverseRefs.ts`, `matchImportExportArgs`) is embedded below
as `matchImportExportArgsOld`.  The reference implementation is the
`packages/linker` one, whose `matchImportExportArgs` source file is not
part of this snapshot — only its test
(`test("mismatched import export params")`, which observes diagnostics
at both the import and the export site) — so that function is modelled
from the spec. -/

/-- Translation of the historical `matchImportExportArgs`
(src/src/TraverseRefs.ts lines 117-124): one `console.error` when the
lengths differ, and a pairing over all export parameters
(`impArgs[i]` is `undefined` past the end, modelled as `none`). -/
def matchImportExportArgsOld (impArgs expArgs : Option (List String)) :
    List (String × Option String) × List String :=
  let imp := impArgs.getD []
  let exp := expArgs.getD []
  let logs :=
    if exp.length ≠ imp.length then ["mismatched import and export params"]
    else []
  ((exp.enum.map fun ip => (ip.2, imp.get? ip.1)), logs)

/-- An import directive site: module name, start position, optional
argument list. -/
structure ImpDirective where
  modName : String
  start : Nat
  args : Option (List String)
deriving DecidableEq, Repr

/-- An export directive site. -/
structure ExpDirective where
  modName : String
  start : Nat
  args : Option (List String)
deriving DecidableEq, Repr

/-- Modelled from the spec: `matchImportExportArgs` of the
`packages/linker` traversal, whose implementation file is absent from
this snapshot (only its test is present).  Per the spec's error
handling section, on mismatched import/export parameter counts it
"logs at both the import and the export site" and "traversal proceeds
with the shorter length", pairing each export parameter with
the import argument at the same index. -/
def matchImportExportArgsLinker (imp : ImpDirective) (exp : ExpDirective) :
    List (String × String) × List (String × Nat) :=
  let impArgs := imp.args.getD []
  let expArgs := exp.args.getD []
  let logs :=
    if expArgs.length ≠ impArgs.length then
      [(imp.modName, imp.start), (exp.modName, exp.start)]
    else []
  (expArgs.zip impArgs, logs)

/-! ### Claim C7: mismatched parameter counts -/

/-- Claim C7: whenever the import and the export declare different
numbers of parameters, a diagnostic is logged at the import site and at
the export site, and the pairing of export parameters with import
arguments has the length of the shorter of the two lists. -/
theorem importExportParamMismatch (imp : ImpDirective) (exp : ExpDirective)
    (h : (exp.args.getD []).length ≠ (imp.args.getD []).length) :
    (matchImportExportArgsLinker imp exp).2 =
        [(imp.modName, imp.start), (exp.modName, exp.start)] ∧
      (matchImportExportArgsLinker imp exp).1.length =
        min (exp.args.getD []).length (imp.args.getD []).length ∧
      (matchImportExportArgsLinker imp exp).1 =
        (exp.args.getD []).zip (imp.args.getD []) := by
  have hlogs : (matchImportExportArgsLinker imp exp).2 =
      [(imp.modName, imp.start), (exp.modName, exp.start)] := by
    show (if (exp.args.getD []).length ≠ (imp.args.getD []).length then
        [(imp.modName, imp.start), (exp.modName, exp.start)] else []) =
      [(imp.modName, imp.start), (exp.modName, exp.start)]
    rw [if_pos h]
  have hpairs : (matchImportExportArgsLinker imp exp).1 =
      (exp.args.getD []).zip (imp.args.getD []) := rfl
  exact ⟨hlogs, by rw [hpairs]; exact List.length_zip _ _, hpairs⟩

/-- Witness for claim C7 on the test scenario
`#import foo(A, B)` against `#export(C)`. -/
theorem importExportParamMismatch_witness :
    (matchImportExportArgsLinker ⟨"main", 5, some ["A", "B"]⟩
          ⟨"file1", 5, some ["C"]⟩).2 =
        [("main", 5), ("file1", 5)] ∧
      (matchImportExportArgsLinker ⟨"main", 5, some ["A", "B"]⟩
          ⟨"file1", 5, some ["C"]⟩).1.length = min 1 2 ∧
      (matchImportExportArgsLinker ⟨"main", 5, some ["A", "B"]⟩
          ⟨"file1", 5, some ["C"]⟩).1 = [("C", "A")] := by
  have h := importExportParamMismatch ⟨"main", 5, some ["A", "B"]⟩
    ⟨"file1", 5, some ["C"]⟩ (by decide)
  exact ⟨h.1, h.2.1, by decide⟩

/-! ## Reference traversal (packages/linker TraverseRefs)

The traversal (`traverseRefs`, `recursiveRefs`, `elemRefs`,
`elemTypeRefs`, `elemChildrenRefs`, `linkedRef`, `importArgRef`,
`importRef`, `localRef`, `textRefs`, `stdFn`, `stdType`) is translated
from the `packages/linker` TraverseRefs source (stored inside
`packages/mini-parse/src/Combo2.ts` in this snapshot).  AST elements
carry an `eid` standing for JavaScript object identity, used to record
the `elem.ref = foundRef` back-pointer assignments as events instead of
in-place mutation.  `refFullName` (Linker.ts), `resolveImport`
(ResolveImport.ts), `importResolveMap` (ParsedRegistry.ts) and
`groupBy` (Util.ts) are not part of this snapshot; they are modelled
from the spec where noted.  The unbounded JavaScript recursion of
`recursiveRefs` is modelled with fuel; the termination claim shows a
fuel bound that always suffices. -/

structure CallElem where
  name : String
  start : Nat
  eid : Nat
deriving DecidableEq, Repr

structure TypeRefElem where
  name : String
  start : Nat
  eid : Nat
deriving DecidableEq, Repr

structure FnElem where
  name : String
  calls : List CallElem
  typeRefs : List TypeRefElem
deriving DecidableEq, Repr

structure StructMemberElem where
  name : String
  typeRefs : List TypeRefElem
deriving DecidableEq, Repr

structure StructElem where
  name : String
  members : List StructMemberElem
deriving DecidableEq, Repr

structure VarElem where
  name : String
  typeRefs : List TypeRefElem
deriving DecidableEq, Repr

structure AliasElem where
  name : String
  targetName : String
  typeRefs : List TypeRefElem
deriving DecidableEq, Repr

/-- The union type of `TextRef.elem`:
`FnElem | StructElem | VarElem | AliasElem | StructMemberElem`. -/
inductive DeclElem where
  | fn (f : FnElem)
  | strct (s : StructElem)
  | gvar (v : VarElem)
  | aliasDecl (a : AliasElem)
  | member (m : StructMemberElem)
deriving DecidableEq, Repr

def DeclElem.name : DeclElem → String
  | DeclElem.fn f => f.name
  | DeclElem.strct s => s.name
  | DeclElem.gvar v => v.name
  | DeclElem.aliasDecl a => a.name
  | DeclElem.member m => m.name

structure TreeImportElem where
  start : Nat
deriving DecidableEq, Repr

structure TextModule where
  name : String
  fns : List FnElem
  structs : List StructElem
  vars : List VarElem
  aliases : List AliasElem
  imports : List TreeImportElem
deriving DecidableEq, Repr

structure GeneratorModule where
  name : String
deriving DecidableEq, Repr

/-- A resolved export: either a text export annotated with the
fn/struct element it refers to (`TextExport.ref`), or a generator
export carrying its name (`GeneratorExport.name`).  The source casts
`modExp.exp` according to `expMod.kind`; the sum type bakes that
correlation in. -/
inductive ModuleExport where
  | text (module : TextModule) (expRef : DeclElem)
  | gen (module : GeneratorModule) (expName : String)
deriving DecidableEq, Repr

/-- The result shape of `resolveImport`. -/
structure ResolvedImport where
  modExp : ModuleExport
  callSegments : List String
  expImpArgs : List (String × String)
deriving DecidableEq, Repr

/-- Modelled from the spec: the parsed registry (`ParsedRegistry.ts` is
not under src/) holds the parsed modules and, per module and reference
name, the import-resolution result (the composition of
`importResolveMap` and `resolveImport`, both also absent from src/):
"for each leaf path, find the exporting module ... resolve the final
segment against that module's exports". -/
structure ParsedRegistry where
  modules : List TextModule
  resolveEntries : List ((String × String) × ResolvedImport)
deriving DecidableEq, Repr

/-- Modelled from the spec: `resolveImport(name, resolveMap)` looks the
name up in the module's resolution map ("if M has an exact import whose
leaf or alias is n, return the resolved ModuleExport"). -/
def resolveImport (reg : ParsedRegistry) (mod : TextModule) (name : String) :
    Option ResolvedImport :=
  (reg.resolveEntries.find? (fun kv => kv.1 = (mod.name, name))).map (fun kv => kv.2)

mutual
inductive FoundRef where
  | txt (expMod : TextModule) (elem : DeclElem) (proposedName : String)
      (expInfo : Option ExportInfo) : FoundRef
  | gen (expMod : GeneratorModule) (name : String) (proposedName : String)
      (expInfo : ExportInfo) : FoundRef
inductive ExportInfo where
  | mk (fromRef : FoundRef) (fromImport : Option TreeImportElem)
      (expImpArgs : List (String × String)) : ExportInfo
end

def ExportInfo.expImpArgs : ExportInfo → List (String × String)
  | ExportInfo.mk _ _ a => a

def FoundRef.expInfoOpt : FoundRef → Option ExportInfo
  | FoundRef.txt _ _ _ i => i
  | FoundRef.gen _ _ _ i => some i

def FoundRef.expModName : FoundRef → String
  | FoundRef.txt m _ _ _ => m.name
  | FoundRef.gen g _ _ _ => g.name

/-- Translation of `refName` (Combo2.ts lines 510-512). -/
def refName : FoundRef → String
  | FoundRef.gen _ n _ _ => n
  | FoundRef.txt _ e _ _ => e.name

def FoundRef.isTxt : FoundRef → Bool
  | FoundRef.txt _ _ _ _ => true
  | FoundRef.gen _ _ _ _ => false

/-- Modelled from the spec: the canonical serialization of
`expImpArgs` used inside `refFullName` ("a stable string incorporating
... a canonical serialization of expImpArgs"). -/
def serializeArgs (ps : List (String × String)) : String :=
  String.intercalate "," (ps.map (fun p => p.1 ++ "=" ++ p.2))

/-- Modelled from the spec: `refFullName` (Linker.ts is not under
src/): "the exporting module's path plus the referenced element's name,
suffixed by a stable hash of its expImpArgs when present". -/
def refFullName (r : FoundRef) : String :=
  match r.expInfoOpt with
  | some i => r.expModName ++ "/" ++ refName r ++ "#" ++ serializeArgs i.expImpArgs
  | none => r.expModName ++ "/" ++ refName r

/-- The `stdTypes` list (Combo2.ts lines 473-497); the trailing empty
string comes from splitting the template literal's trailing
whitespace. -/
def stdTypes : List String :=
  ["array", "atomic", "bool", "f16", "f32", "i32",
   "mat2x2", "mat2x3", "mat2x4", "mat3x2", "mat3x3", "mat3x4", "mat4x2", "mat4x3", "mat4x4",
   "mat2x2f", "mat2x3f", "mat2x4f", "mat3x2f", "mat3x3f", "mat3x4f",
   "mat4x2f", "mat4x3f", "mat4x4f",
   "mat2x2h", "mat2x3h", "mat2x4h", "mat3x2h", "mat3x3h", "mat3x4h",
   "mat4x2h", "mat4x3h", "mat4x4h",
   "u32", "vec2", "vec3", "vec4", "ptr",
   "vec2i", "vec3i", "vec4i", "vec2u", "vec3u", "vec4u",
   "vec2f", "vec3f", "vec4f", "vec2h", "vec3h", "vec4h",
   "texture_1d", "texture_2d", "texture_2d_array", "texture_3d",
   "texture_cube", "texture_cube_array",
   "texture_multisampled_2d", "texture_depth_multisampled_2d",
   "texture_external",
   "texture_storage_1d", "texture_storage_2d", "texture_storage_2d_array",
   "texture_storage_3d",
   "texture_depth_2d", "texture_depth_2d_array", "texture_depth_cube",
   "texture_depth_cube_array",
   "sampler", "sampler_comparison",
   "rgba8unorm", "rgba8snorm", "rgba8uint", "rgba8sint",
   "rgba16uint", "rgba16sint", "rgba16float",
   "r32uint", "r32sint", "r32float", "rg32uint", "rg32sint", "rg32float",
   "rgba32uint", "rgba32sint", "rgba32float",
   "bgra8unorm",
   "function",
   ""]

/-- The `stdFns` list (Combo2.ts lines 448-471), likewise with the
trailing empty string. -/
def stdFns : List String :=
  ["bitcast", "all", "any", "select", "arrayLength",
   "abs", "acos", "acosh", "asin", "asinh", "atan", "atanh", "atan2", "ceil", "clamp", "cos", "cosh",
   "countLeadingZeros", "countOneBits", "countTrailingZeros", "cross",
   "degrees", "determinant", "distance", "dot", "dot4UI8Packed", "dot4I8Packed",
   "exp", "exp2", "extractBits", "faceForward", "firstLeadingBit", "firstTrailingBit",
   "floor", "fma", "fract", "frexp", "inserBits", "inverseSqrt", "ldexp", "length", "log", "log2",
   "max", "min", "mix", "modf", "normalize", "pow", "quantizeToF16", "radians", "reflect", "refract",
   "reverseBits", "round", "saturate", "sign", "sin", "sinh", "smoothstep", "sqrt", "step", "tan", "tanh",
   "transpose", "trunc",
   "dpdx", "dpdxCoarse", "dpdxFine", "dpdy", "dpdyCoarse", "dpdyFine", "fwidth",
   "fwdithCoarse", "fwidthFine",
   "textureDimensions", "textureGather", "textureGatherCompare", "textureLoad",
   "textureNumLayers", "textureNumLevels", "textureNumSamples",
   "textureSample", "textureSampleBias", "textureSampleCompare", "textureSampleCompareLevel",
   "textureSampleGrad", "textureSampleLevel", "textureSampleBaseClampToEdge",
   "textureStore",
   "atomicLoad", "atomicStore", "atomicAdd", "atomicSub", "atomicMax", "atomicMin",
   "atomicOr", "atomicXor", "atomicExchange", "atomicCompareExchangeWeak",
   "pack4x8snorm", "pack4x8unorm", "pack4xI8", "pack4xU8", "pack4xI8Clamp", "pack4xU8Clamp",
   "pack2x16snorm", "pack2x16unorm", "pack2x16float",
   "unpack4x8snorm", "unpack4x8unorm", "unpack4xI8", "unpack4xU8",
   "unpack2x16snorm", "unpack2x16unorm", "unpack2x16float",
   "storageBarrier", "textureBarrier", "workgroupBarrier", "workgroupUniformLoad",
   ""]

/-- Translation of `stdType`. -/
def stdType (name : String) : Bool :=
  stdTypes.contains name

/-- Translation of `stdFn`. -/
def stdFn (name : String) : Bool :=
  stdFns.contains name || stdType name

/-- The `CallElem | TypeRefElem` union taken by `linkedRef`. -/
inductive ChildElem where
  | call (c : CallElem)
  | typeRef (t : TypeRefElem)
deriving DecidableEq, Repr

def ChildElem.name : ChildElem → String
  | ChildElem.call c => c.name
  | ChildElem.typeRef t => t.name

def ChildElem.start : ChildElem → Nat
  | ChildElem.call c => c.start
  | ChildElem.typeRef t => t.start

def ChildElem.eid : ChildElem → Nat
  | ChildElem.call c => c.eid
  | ChildElem.typeRef t => t.eid

/-- The observable output of the element-level traversal helpers: the
produced refs, the `elem.ref = foundRef` assignments (keyed by element
identity), and the `moduleLog` diagnostics
`(module name, position, message)`. -/
structure LinkOut where
  refs : List FoundRef
  sets : List (Nat × FoundRef)
  logs : List (String × Nat × String)

/-- Concatenation of traversal outputs in program order. -/
def LinkOut.app (a b : LinkOut) : LinkOut :=
  ⟨a.refs ++ b.refs, a.sets ++ b.sets, a.logs ++ b.logs⟩

/-- Translation of `importArgRef` (lines 383-387): true when the name
is an export parameter recorded on the ref's import chain. -/
def importArgRef (srcRef : FoundRef) (name : String) : Bool :=
  match srcRef.expInfoOpt with
  | some info => info.expImpArgs.any (fun p => p.1 = name)
  | none => false

/-- Translation of `importRef` (lines 391-430): resolve through the
module's import-resolution map and build the text or generator ref.
`imports[0]` (a source `TODO`) is `imports.head?`; the non-null
assertion `last(callSegments)!` is modelled with a default. -/
def importRef (reg : ParsedRegistry) (fromRef : FoundRef) (name : String)
    (impMod : TextModule) (imports : List TreeImportElem) : Option FoundRef :=
  match resolveImport reg impMod name with
  | none => none
  | some resolved =>
    let fromImport := imports.head?
    let proposedName := resolved.callSegments.getLast?.getD ""
    let expInfo := ExportInfo.mk fromRef fromImport resolved.expImpArgs
    match resolved.modExp with
    | ModuleExport.text expMod exp =>
      some (FoundRef.txt expMod exp proposedName (some expInfo))
    | ModuleExport.gen expMod expName =>
      some (FoundRef.gen expMod expName proposedName expInfo)

/-- Translation of `localRef` (lines 432-446): search the module's own
`fns`, then `structs`, then `aliases`. -/
def localRef (name : String) (mod : TextModule) : Option FoundRef :=
  match mod.fns.find? (fun f => f.name = name) with
  | some f => some (FoundRef.txt mod (DeclElem.fn f) f.name none)
  | none =>
    match mod.structs.find? (fun s => s.name = name) with
    | some s => some (FoundRef.txt mod (DeclElem.strct s) s.name none)
    | none =>
      match mod.aliases.find? (fun a => a.name = name) with
      | some a => some (FoundRef.txt mod (DeclElem.aliasDecl a) a.name none)
      | none => none

/-- The `??` (nullish-coalescing) operator on optional refs. -/
def orElseOpt (a b : Option FoundRef) : Option FoundRef :=
  match a with
  | some r => some r
  | none => b

/-- Translation of `linkedRef` (lines 354-380): import-parameter names
produce nothing; otherwise `importRef ?? localRef`; a found ref is
recorded on the element's `ref` field and returned; otherwise a
"reference not found" diagnostic is logged via `moduleLog` against the
referring ref's module. -/
def linkedRef (reg : ParsedRegistry) (elem : ChildElem) (srcRef : FoundRef)
    (mod : TextModule) : LinkOut :=
  if importArgRef srcRef elem.name then ⟨[], [], []⟩
  else
    match orElseOpt (importRef reg srcRef elem.name mod mod.imports)
        (localRef elem.name mod) with
    | some foundRef => ⟨[foundRef], [(elem.eid, foundRef)], []⟩
    | none =>
      ⟨[], [], [(srcRef.expModName, elem.start, "reference not found: " ++ elem.name)]⟩

/-- Translation of `elemTypeRefs` (lines 319-339): the element's type
references with standard type names filtered out. -/
def elemTypeRefs (elem : DeclElem) : List TypeRefElem :=
  (match elem with
   | DeclElem.fn f => f.typeRefs
   | DeclElem.gvar v => v.typeRefs
   | DeclElem.aliasDecl a => a.typeRefs
   | DeclElem.member m => m.typeRefs
   | DeclElem.strct s => s.members.flatMap (fun m => m.typeRefs)).filter
    (fun r => ¬ stdType r.name)

/-- Translation of `elemChildrenRefs` (lines 343-350):
`children.flatMap(elem => linkedRef(...))`, with the side effects
collected in order. -/
def elemChildrenRefs (reg : ParsedRegistry) (srcRef : FoundRef)
    (children : List ChildElem) (mod : TextModule) : LinkOut :=
  children.foldl (fun acc c => acc.app (linkedRef reg c srcRef mod)) ⟨[], [], []⟩

/-- Translation of `elemRefs` (lines 300-316): for `fn` elements the
non-standard, non-self calls, then the element's type references.
`elemRefs` is only reached through `textRefs`, so the `gen` case (whose
`elem` field does not exist in the source) returns nothing. -/
def elemRefs (reg : ParsedRegistry) (srcRef : FoundRef) (mod : TextModule) :
    LinkOut :=
  match srcRef with
  | FoundRef.gen _ _ _ _ => ⟨[], [], []⟩
  | FoundRef.txt _ elem _ _ =>
    let fnRefs :=
      match elem with
      | DeclElem.fn f =>
        let userCalls := f.calls.filter
          (fun (c : CallElem) => ¬ stdFn c.name = true ∧ c.name ≠ f.name)
        elemChildrenRefs reg srcRef (userCalls.map ChildElem.call) mod
      | _ => ⟨[], [], []⟩
    let tRefs :=
      elemChildrenRefs reg srcRef ((elemTypeRefs elem).map ChildElem.typeRef) mod
    fnRefs.app tRefs

/-- Translation of `textRefs` (lines 291-297). -/
def textRefs (refs : List FoundRef) : List FoundRef :=
  refs.filter (fun r => r.isTxt)

/-- One group-insertion step of `groupBy`. -/
def insertGroup (groups : List (TextModule × List FoundRef)) (mod : TextModule)
    (r : FoundRef) : List (TextModule × List FoundRef) :=
  match groups with
  | [] => [(mod, [r])]
  | g :: rest =>
    if g.1.name = mod.name then (g.1, g.2 ++ [r]) :: rest
    else g :: insertGroup rest mod r

/-- One step of `groupBy`: add the ref under its `expMod` key.  The
input refs have passed `textRefs`, so the `gen` case never fires. -/
def groupStep (gs : List (TextModule × List FoundRef)) (r : FoundRef) :
    List (TextModule × List FoundRef) :=
  match r with
  | FoundRef.txt m _ _ _ => insertGroup gs m r
  | FoundRef.gen _ _ _ _ => gs

/-- Modelled from the spec: `groupBy` (Util.ts is not under src/)
builds a `Map` from each ref's `expMod` to the refs in encounter order;
JavaScript `Map` keys are module object identities, and the registry
holds exactly one module object per canonical name, so grouping is
keyed here by module name. -/
def groupByMod (refs : List FoundRef) : List (TextModule × List FoundRef) :=
  refs.foldl groupStep []

/-- Translation of `refs.flatMap(r => elemRefs(r, mod, registry))` in
`recursiveRefs`/`traverseRefs`. -/
def childRefsOf (reg : ParsedRegistry) (mod : TextModule)
    (grefs : List FoundRef) : LinkOut :=
  grefs.foldl (fun acc r => acc.app (elemRefs reg r mod)) ⟨[], [], []⟩

/-- Translation of `eachRef`/`unseen` specialised into the
`refs.filter(r => fn(r))` pass of `recursiveRefs`: every ref is
visited; the ones whose `refFullName` is unseen are kept for recursion
and added to the seen set. -/
def filterStep : List FoundRef → List String → List FoundRef × List String
  | [], seen => ([], seen)
  | r :: rs, seen =>
    if refFullName r ∈ seen then filterStep rs seen
    else
      let out := filterStep rs (refFullName r :: seen)
      (r :: out.1, out.2)

/-- Translation of the `modGroups.entries().forEach` loop of
`recursiveRefs` (lines 283-288), parameterised by the recursive call:
for each non-empty group compute its child refs and recurse, threading
the seen set.  Results are `(visited refs, refs recursed into, seen)`;
`none` stands for fuel exhaustion. -/
def groupsLoop (reg : ParsedRegistry)
    (recFn : List FoundRef → List String →
      Option (List FoundRef × List FoundRef × List String)) :
    List (TextModule × List FoundRef) → List String →
    Option (List FoundRef × List FoundRef × List String)
  | [], seen => some ([], [], seen)
  | g :: gs, seen =>
    if g.2.isEmpty then groupsLoop reg recFn gs seen
    else
      match recFn (childRefsOf reg g.1 g.2).refs seen with
      | none => none
      | some (v1, e1, sn1) =>
        match groupsLoop reg recFn gs sn1 with
        | none => none
        | some (v2, e2, sn2) => some (v1 ++ v2, e1 ++ e2, sn2)

/-- Translation of `recursiveRefs` (lines 272-289) specialised to the
`eachRef` callback of `traverseRefs`: visit every ref of the wave, keep
the unseen ones, group their text refs by exporting module and recurse
group by group. -/
def recursiveRefs (reg : ParsedRegistry) :
    Nat → List FoundRef → List String →
    Option (List FoundRef × List FoundRef × List String)
  | 0, _, _ => none
  | fuel + 1, refs, seen =>
    let fs := filterStep refs seen
    match groupsLoop reg (fun a b => recursiveRefs reg fuel a b)
        (groupByMod (textRefs fs.1)) fs.2 with
    | none => none
    | some (v, e, sn) => some (refs ++ v, fs.1 ++ e, sn)

/-- Translation of `traverseRefs` (lines 221-262): seed one text ref
per root declaration (structs, vars, fns, aliases), visit them, and
recurse on their child refs with an empty seen set. -/
def traverseRefs (reg : ParsedRegistry) (fuel : Nat) (srcModule : TextModule) :
    Option (List FoundRef × List FoundRef × List String) :=
  let srcRefs : List FoundRef :=
    (srcModule.structs.map fun e =>
      FoundRef.txt srcModule (DeclElem.strct e) e.name none) ++
    (srcModule.vars.map fun e =>
      FoundRef.txt srcModule (DeclElem.gvar e) e.name none) ++
    (srcModule.fns.map fun e =>
      FoundRef.txt srcModule (DeclElem.fn e) e.name none) ++
    (srcModule.aliases.map fun e =>
      FoundRef.txt srcModule (DeclElem.aliasDecl e) e.name none)
  if srcRefs.isEmpty then some (srcRefs, [], [])
  else
    match recursiveRefs reg fuel (childRefsOf reg srcModule (textRefs srcRefs)).refs [] with
    | none => none
    | some (v, e, sn) => some (srcRefs ++ v, e, sn)

/-! ### Claim C1: name-lookup order -/

/-- Spec-side outcome of looking a reference name up. -/
inductive LookupResult where
  | argRef
  | found (r : FoundRef)
  | notFound

/-- Refinement-side definition, following the spec's lookup steps 2-4:
an exact import resolving through the module's resolution map wins,
else a declaration among the module's own fns, structs or aliases,
else the name is not found. -/
def specModuleLookup (reg : ParsedRegistry) (srcRef : FoundRef)
    (mod : TextModule) (n : String) : LookupResult :=
  match importRef reg srcRef n mod mod.imports with
  | some r => LookupResult.found r
  | none =>
    match localRef n mod with
    | some r => LookupResult.found r
    | none => LookupResult.notFound

/-- Refinement-side definition of the spec's name lookup (§4.G),
step 1 first: a name equal to an export parameter recorded on the
enclosing ref's import chain is an arg reference; only otherwise do
steps 2-4 apply. -/
def specNameLookup (reg : ParsedRegistry) (srcRef : FoundRef)
    (mod : TextModule) (n : String) : LookupResult :=
  match srcRef.expInfoOpt with
  | some info =>
    if (info.expImpArgs.map Prod.fst).contains n then LookupResult.argRef
    else specModuleLookup reg srcRef mod n
  | none => specModuleLookup reg srcRef mod n

/-- Claim C1: `linkedRef` follows the spec's lookup order exactly.  An
arg reference produces no ref (so traversal does not recurse into it),
no assignment and no log; a resolved name (import resolution first,
then the module's own fns/structs/aliases) produces exactly that ref
and sets the referring element's `ref` field to it; otherwise a single
"reference not found" diagnostic is logged and no assignment is made.
The second conjunct pins step 1 down: the arg-reference outcome occurs
exactly when the name is among the export parameters of the enclosing
ref's import chain. -/
theorem linkedRef_follows_lookup_order (reg : ParsedRegistry)
    (srcRef : FoundRef) (mod : TextModule) (child : ChildElem) :
    (linkedRef reg child srcRef mod =
      match specNameLookup reg srcRef mod child.name with
      | LookupResult.argRef => ⟨[], [], []⟩
      | LookupResult.found r => ⟨[r], [(child.eid, r)], []⟩
      | LookupResult.notFound =>
        ⟨[], [],
          [(srcRef.expModName, child.start, "reference not found: " ++ child.name)]⟩) ∧
    (specNameLookup reg srcRef mod child.name = LookupResult.argRef ↔
      ∃ info, srcRef.expInfoOpt = some info ∧
        child.name ∈ info.expImpArgs.map Prod.fst) := by
  have hargs : importArgRef srcRef child.name = true ↔
      ∃ info, srcRef.expInfoOpt = some info ∧
        child.name ∈ info.expImpArgs.map Prod.fst := by
    unfold importArgRef
    cases hinfo : srcRef.expInfoOpt with
    | none => simp
    | some info =>
      simp only [List.any_eq_true, decide_eq_true_eq, Option.some.injEq]
      constructor
      · rintro ⟨p, hp, he⟩
        exact ⟨info, rfl, List.mem_map.mpr ⟨p, hp, he⟩⟩
      · rintro ⟨info2, hinfo2, hmem⟩
        obtain ⟨p, hp, he⟩ := List.mem_map.mp (hinfo2 ▸ hmem)
        exact ⟨p, hp, he⟩
  have hcontains : ∀ info : ExportInfo,
      ((info.expImpArgs.map Prod.fst).contains child.name = true ↔
        child.name ∈ info.expImpArgs.map Prod.fst) := by
    intro info
    exact List.elem_iff
  have hnever : specModuleLookup reg srcRef mod child.name ≠ LookupResult.argRef := by
    unfold specModuleLookup
    cases importRef reg srcRef child.name mod mod.imports with
    | some r => intro hc; cases hc
    | none =>
      cases localRef child.name mod with
      | some r => intro hc; cases hc
      | none => intro hc; cases hc
  constructor
  · unfold linkedRef specNameLookup
    cases hinfo : srcRef.expInfoOpt with
    | none =>
      dsimp only
      rw [if_neg (by
        intro hc
        obtain ⟨info, hi, -⟩ := hargs.mp hc
        rw [hinfo] at hi
        cases hi)]
      unfold specModuleLookup orElseOpt
      cases importRef reg srcRef child.name mod mod.imports with
      | some r => rfl
      | none =>
        cases localRef child.name mod with
        | some r => rfl
        | none => rfl
    | some info =>
      dsimp only
      by_cases hmem : child.name ∈ info.expImpArgs.map Prod.fst
      · rw [if_pos (hargs.mpr ⟨info, hinfo, hmem⟩),
          if_pos ((hcontains info).mpr hmem)]
      · rw [if_neg (by
          intro hc
          obtain ⟨info2, hi2, hm2⟩ := hargs.mp hc
          rw [hinfo] at hi2
          cases hi2
          exact hmem hm2),
          if_neg (by
            intro hc
            exact hmem ((hcontains info).mp hc))]
        unfold specModuleLookup orElseOpt
        cases importRef reg srcRef child.name mod mod.imports with
        | some r => rfl
        | none =>
          cases localRef child.name mod with
          | some r => rfl
          | none => rfl
  · unfold specNameLookup
    cases hinfo : srcRef.expInfoOpt with
    | none =>
      dsimp only
      constructor
      · intro hc
        exact absurd hc hnever
      · rintro ⟨info, hi, -⟩
        cases hi
    | some info =>
      dsimp only
      by_cases hmem : child.name ∈ info.expImpArgs.map Prod.fst
      · rw [if_pos ((hcontains info).mpr hmem)]
        exact ⟨fun _ => ⟨info, rfl, hmem⟩, fun _ => rfl⟩
      · rw [if_neg (fun hc => hmem ((hcontains info).mp hc))]
        constructor
        · intro hc
          exact absurd hc hnever
        · rintro ⟨info2, hi2, hm2⟩
          cases hi2
          exact absurd hm2 hmem

/-! ### Claims C2 and C6: machinery

Finiteness of the reference universe: every ref the traversal can
produce is either a local ref to a declaration of a registered module
or the ref built from one resolution entry, so its `refFullName` lies
in a fixed finite list. -/

/-- Full names of the local refs `localRef` can produce in a module. -/
def localFullNames (m : TextModule) : List String :=
  (m.fns.map fun f => m.name ++ "/" ++ f.name) ++
  (m.structs.map fun s => m.name ++ "/" ++ s.name) ++
  (m.aliases.map fun a => m.name ++ "/" ++ a.name)

/-- The full name of the ref built from one resolution entry. -/
def entryFullName (r : ResolvedImport) : String :=
  match r.modExp with
  | ModuleExport.text tm exp =>
    tm.name ++ "/" ++ exp.name ++ "#" ++ serializeArgs r.expImpArgs
  | ModuleExport.gen g expName =>
    g.name ++ "/" ++ expName ++ "#" ++ serializeArgs r.expImpArgs

/-- Every full name the traversal can mention. -/
def universeNames (reg : ParsedRegistry) : List String :=
  reg.modules.flatMap localFullNames ++
    reg.resolveEntries.map (fun kv => entryFullName kv.2)

/-- Registry well-formedness: resolution entries point at registered
text modules. -/
def RegistryWF (reg : ParsedRegistry) : Prop :=
  ∀ kv ∈ reg.resolveEntries,
    match kv.2.modExp with
    | ModuleExport.text tm _ => tm ∈ reg.modules
    | ModuleExport.gen _ _ => True

/-- The exporting module of a text ref is registered. -/
def refModOK (reg : ParsedRegistry) : FoundRef → Prop
  | FoundRef.txt m _ _ _ => m ∈ reg.modules
  | FoundRef.gen _ _ _ _ => True

/-- Invariant of a traversal worklist. -/
def WaveOK (reg : ParsedRegistry) (refs : List FoundRef) : Prop :=
  ∀ r ∈ refs, refFullName r ∈ universeNames reg ∧ refModOK reg r

/-- Refs produced by `importRef` stay inside the universe. -/
theorem importRef_ok {reg : ParsedRegistry} (hwf : RegistryWF reg)
    {fromRef : FoundRef} {name : String} {mod : TextModule}
    {imports : List TreeImportElem} {r : FoundRef}
    (h : importRef reg fromRef name mod imports = some r) :
    refFullName r ∈ universeNames reg ∧ refModOK reg r := by
  unfold importRef at h
  cases hres : resolveImport reg mod name with
  | none => rw [hres] at h; cases h
  | some resolved =>
    rw [hres] at h
    dsimp only at h
    have hmem : ∃ kv ∈ reg.resolveEntries, kv.2 = resolved := by
      unfold resolveImport at hres
      cases hfind : reg.resolveEntries.find?
          (fun kv => kv.1 = (mod.name, name)) with
      | none => rw [hfind] at hres; cases hres
      | some kv =>
        rw [hfind] at hres
        refine ⟨kv, List.mem_of_find?_eq_some hfind, ?_⟩
        simpa using hres
    obtain ⟨kv, hkv, hkv2⟩ := hmem
    have huniv : entryFullName resolved ∈ universeNames reg := by
      unfold universeNames
      refine List.mem_append.mpr (Or.inr ?_)
      exact List.mem_map.mpr ⟨kv, hkv, by rw [hkv2]⟩
    have hmods := hwf kv hkv
    rw [hkv2] at hmods
    cases hexp : resolved.modExp with
    | text expMod exp =>
      rw [hexp] at h
      cases h
      rw [hexp] at hmods
      refine ⟨?_, hmods⟩
      have : refFullName
          (FoundRef.txt expMod exp (resolved.callSegments.getLast?.getD "")
            (some (ExportInfo.mk fromRef imports.head? resolved.expImpArgs))) =
          entryFullName resolved := by
        unfold refFullName entryFullName
        rw [hexp]
        rfl
      rw [this]
      exact huniv
    | gen expMod expName =>
      rw [hexp] at h
      cases h
      refine ⟨?_, trivial⟩
      have : refFullName
          (FoundRef.gen expMod expName (resolved.callSegments.getLast?.getD "")
            (ExportInfo.mk fromRef imports.head? resolved.expImpArgs)) =
          entryFullName resolved := by
        unfold refFullName entryFullName
        rw [hexp]
        rfl
      rw [this]
      exact huniv

/-- Refs produced by `localRef` stay inside the universe. -/
theorem localRef_ok {reg : ParsedRegistry} {name : String} {mod : TextModule}
    {r : FoundRef} (hmod : mod ∈ reg.modules) (h : localRef name mod = some r) :
    refFullName r ∈ universeNames reg ∧ refModOK reg r := by
  have hup : ∀ s ∈ localFullNames mod, s ∈ universeNames reg := by
    intro s hs
    unfold universeNames
    exact List.mem_append.mpr (Or.inl (List.mem_flatMap.mpr ⟨mod, hmod, hs⟩))
  unfold localRef at h
  cases hf : mod.fns.find? (fun f => f.name = name) with
  | some f =>
    rw [hf] at h
    cases h
    refine ⟨hup _ ?_, hmod⟩
    unfold localFullNames
    exact List.mem_append.mpr (Or.inl (List.mem_append.mpr (Or.inl
      (List.mem_map.mpr ⟨f, List.mem_of_find?_eq_some hf, rfl⟩))))
  | none =>
    rw [hf] at h
    cases hs : mod.structs.find? (fun s => s.name = name) with
    | some s =>
      rw [hs] at h
      cases h
      refine ⟨hup _ ?_, hmod⟩
      unfold localFullNames
      exact List.mem_append.mpr (Or.inl (List.mem_append.mpr (Or.inr
        (List.mem_map.mpr ⟨s, List.mem_of_find?_eq_some hs, rfl⟩))))
    | none =>
      rw [hs] at h
      cases ha : mod.aliases.find? (fun a => a.name = name) with
      | some a =>
        rw [ha] at h
        cases h
        refine ⟨hup _ ?_, hmod⟩
        unfold localFullNames
        exact List.mem_append.mpr (Or.inr
          (List.mem_map.mpr ⟨a, List.mem_of_find?_eq_some ha, rfl⟩))
      | none => rw [ha] at h; cases h

/-- Refs produced by `linkedRef` stay inside the universe. -/
theorem linkedRef_ok {reg : ParsedRegistry} (hwf : RegistryWF reg)
    {child : ChildElem} {srcRef : FoundRef} {mod : TextModule}
    (hmod : mod ∈ reg.modules) :
    ∀ r ∈ (linkedRef reg child srcRef mod).refs,
      refFullName r ∈ universeNames reg ∧ refModOK reg r := by
  intro r hr
  unfold linkedRef at hr
  by_cases harg : importArgRef srcRef child.name = true
  · rw [if_pos harg] at hr; cases hr
  · rw [if_neg harg] at hr
    unfold orElseOpt at hr
    cases hi : importRef reg srcRef child.name mod mod.imports with
    | some r0 =>
      rw [hi] at hr
      dsimp only at hr
      rcases List.mem_singleton.mp hr with rfl
      exact importRef_ok hwf hi
    | none =>
      rw [hi] at hr
      dsimp only at hr
      cases hl : localRef child.name mod with
      | some r0 =>
        rw [hl] at hr
        dsimp only at hr
        rcases List.mem_singleton.mp hr with rfl
        exact localRef_ok hmod hl
      | none => rw [hl] at hr; cases hr

/-- Refs of a `LinkOut` fold are the concatenation of the piecewise
refs. -/
theorem foldl_app_refs {α : Type _} (g : α → LinkOut) :
    ∀ (l : List α) (init : LinkOut),
      (l.foldl (fun acc c => acc.app (g c)) init).refs =
        init.refs ++ l.flatMap (fun c => (g c).refs) := by
  intro l
  induction l with
  | nil => intro init; simp
  | cons c cs ih =>
    intro init
    rw [List.foldl_cons, ih]
    unfold LinkOut.app
    simp

/-- Refs produced by `elemRefs` stay inside the universe. -/
theorem elemRefs_ok {reg : ParsedRegistry} (hwf : RegistryWF reg)
    {srcRef : FoundRef} {mod : TextModule} (hmod : mod ∈ reg.modules) :
    ∀ r ∈ (elemRefs reg srcRef mod).refs,
      refFullName r ∈ universeNames reg ∧ refModOK reg r := by
  intro r hr
  unfold elemRefs at hr
  cases srcRef with
  | gen _ _ _ _ => cases hr
  | txt m0 elem pn info =>
    dsimp only at hr
    unfold LinkOut.app at hr
    rcases List.mem_append.mp hr with h | h
    · cases elem with
      | fn f =>
        dsimp only at h
        unfold elemChildrenRefs at h
        rw [foldl_app_refs] at h
        rcases List.mem_append.mp h with h' | h'
        · cases h'
        · obtain ⟨c, -, hc⟩ := List.mem_flatMap.mp h'
          exact linkedRef_ok hwf hmod r hc
      | strct s => cases h
      | gvar v => cases h
      | aliasDecl a => cases h
      | member mm => cases h
    · unfold elemChildrenRefs at h
      rw [foldl_app_refs] at h
      rcases List.mem_append.mp h with h' | h'
      · cases h'
      · obtain ⟨c, -, hc⟩ := List.mem_flatMap.mp h'
        exact linkedRef_ok hwf hmod r hc

/-- Child waves computed from a registered module satisfy the worklist
invariant. -/
theorem childRefsOf_ok {reg : ParsedRegistry} (hwf : RegistryWF reg)
    {mod : TextModule} (hmod : mod ∈ reg.modules) (grefs : List FoundRef) :
    WaveOK reg (childRefsOf reg mod grefs).refs := by
  intro r hr
  unfold childRefsOf at hr
  rw [foldl_app_refs] at hr
  rcases List.mem_append.mp hr with h | h
  · cases h
  · obtain ⟨g, -, hg⟩ := List.mem_flatMap.mp h
    exact elemRefs_ok hwf hmod r hg

/-- Keys added by `insertGroup` satisfy a key predicate. -/
theorem insertGroup_key_prop (P : TextModule → Prop) :
    ∀ (gs : List (TextModule × List FoundRef)) (mod : TextModule) (r : FoundRef),
      (∀ g ∈ gs, P g.1) → P mod → ∀ g ∈ insertGroup gs mod r, P g.1 := by
  intro gs
  induction gs with
  | nil =>
    intro mod r _ hP g hg
    rcases List.mem_singleton.mp hg with rfl
    exact hP
  | cons g0 gs ih =>
    intro mod r hall hP g hg
    unfold insertGroup at hg
    by_cases hname : g0.1.name = mod.name
    · rw [if_pos hname] at hg
      rcases List.mem_cons.mp hg with rfl | h
      · exact hall g0 (List.mem_cons_self _ _)
      · exact hall g (List.mem_cons_of_mem _ h)
    · rw [if_neg hname] at hg
      rcases List.mem_cons.mp hg with rfl | h
      · exact hall g (List.mem_cons_self _ _)
      · exact ih mod r (fun x hx => hall x (List.mem_cons_of_mem _ hx)) hP g h

/-- Group member lists stay non-empty under `insertGroup`. -/
theorem insertGroup_nonempty :
    ∀ (gs : List (TextModule × List FoundRef)) (mod : TextModule) (r : FoundRef),
      (∀ g ∈ gs, g.2 ≠ []) → ∀ g ∈ insertGroup gs mod r, g.2 ≠ [] := by
  intro gs
  induction gs with
  | nil =>
    intro mod r _ g hg
    rcases List.mem_singleton.mp hg with rfl
    simp
  | cons g0 gs ih =>
    intro mod r hall g hg
    unfold insertGroup at hg
    by_cases hname : g0.1.name = mod.name
    · rw [if_pos hname] at hg
      rcases List.mem_cons.mp hg with rfl | h
      · simp
      · exact hall g (List.mem_cons_of_mem _ h)
    · rw [if_neg hname] at hg
      rcases List.mem_cons.mp hg with rfl | h
      · exact hall g (List.mem_cons_self _ _)
      · exact ih mod r (fun x hx => hall x (List.mem_cons_of_mem _ hx)) g h

/-- Keys of `groupByMod` come from text refs of the input. -/
theorem groupByMod_key_prop (P : TextModule → Prop) :
    ∀ (refs : List FoundRef) (acc : List (TextModule × List FoundRef)),
      (∀ r ∈ refs, ∀ m e pn i, r = FoundRef.txt m e pn i → P m) →
      (∀ g ∈ acc, P g.1) →
      ∀ g ∈ refs.foldl groupStep acc, P g.1 := by
  intro refs
  induction refs with
  | nil => intro acc _ hacc; exact hacc
  | cons r rs ih =>
    intro acc hr hacc
    rw [List.foldl_cons]
    refine ih (groupStep acc r) (fun x hx => hr x (List.mem_cons_of_mem _ hx)) ?_
    cases r with
    | txt m e pn i =>
      show ∀ g ∈ insertGroup acc m (FoundRef.txt m e pn i), P g.1
      exact insertGroup_key_prop P acc m _ hacc
        (hr _ (List.mem_cons_self _ _) m e pn i rfl)
    | gen a b c d =>
      show ∀ g ∈ acc, P g.1
      exact hacc

/-- All groups of `groupByMod` are non-empty. -/
theorem groupByMod_nonempty :
    ∀ (refs : List FoundRef) (acc : List (TextModule × List FoundRef)),
      (∀ g ∈ acc, g.2 ≠ []) →
      ∀ g ∈ refs.foldl groupStep acc, g.2 ≠ [] := by
  intro refs
  induction refs with
  | nil => intro acc hacc; exact hacc
  | cons r rs ih =>
    intro acc hacc
    rw [List.foldl_cons]
    refine ih (groupStep acc r) ?_
    cases r with
    | txt m e pn i =>
      show ∀ g ∈ insertGroup acc m (FoundRef.txt m e pn i), g.2 ≠ []
      exact insertGroup_nonempty acc m _ hacc
    | gen a b c d =>
      show ∀ g ∈ acc, g.2 ≠ []
      exact hacc

/-- Structure of the filter pass: the seen set ends as the kept refs'
names (in reverse discovery order) on top of the old seen set; the kept
refs come from the wave; no-duplicate and length facts. -/
theorem filterStep_spec :
    ∀ (refs : List FoundRef) (seen : List String),
      (filterStep refs seen).2 =
          ((filterStep refs seen).1.map refFullName).reverse ++ seen ∧
        (∀ r ∈ (filterStep refs seen).1, r ∈ refs) ∧
        (seen.Nodup → (filterStep refs seen).2.Nodup) ∧
        (filterStep refs seen).2.length =
          seen.length + (filterStep refs seen).1.length := by
  intro refs
  induction refs with
  | nil =>
    intro seen
    refine ⟨rfl, ?_, fun h => h, rfl⟩
    intro r hr
    cases hr
  | cons r rs ih =>
    intro seen
    by_cases hmem : refFullName r ∈ seen
    · have hstep : filterStep (r :: rs) seen = filterStep rs seen := by
        show (if refFullName r ∈ seen then filterStep rs seen
          else (r :: (filterStep rs (refFullName r :: seen)).1,
            (filterStep rs (refFullName r :: seen)).2)) = filterStep rs seen
        rw [if_pos hmem]
      rw [hstep]
      obtain ⟨h1, h2, h3, h4⟩ := ih seen
      exact ⟨h1, fun x hx => List.mem_cons_of_mem _ (h2 x hx), h3, h4⟩
    · have hstep : filterStep (r :: rs) seen =
          (r :: (filterStep rs (refFullName r :: seen)).1,
            (filterStep rs (refFullName r :: seen)).2) := by
        show (if refFullName r ∈ seen then filterStep rs seen
          else (r :: (filterStep rs (refFullName r :: seen)).1,
            (filterStep rs (refFullName r :: seen)).2)) =
          (r :: (filterStep rs (refFullName r :: seen)).1,
            (filterStep rs (refFullName r :: seen)).2)
        rw [if_neg hmem]
      obtain ⟨h1, h2, h3, h4⟩ := ih (refFullName r :: seen)
      rw [hstep]
      refine ⟨?_, ?_, ?_, ?_⟩
      · rw [List.map_cons, List.reverse_cons, List.append_assoc]
        exact h1
      · intro x hx
        rcases List.mem_cons.mp hx with rfl | h
        · exact List.mem_cons_self _ _
        · exact List.mem_cons_of_mem _ (h2 x h)
      · intro hndseen
        exact h3 (List.nodup_cons.mpr ⟨hmem, hndseen⟩)
      · rw [h4]
        simp
        omega

/-- A duplicate-free list included in another list is no longer than
the other list's deduplication. -/
theorem nodup_subset_length {l u : List String} (hnd : l.Nodup)
    (hsub : ∀ a ∈ l, a ∈ u) : l.length ≤ u.dedup.length := by
  have h1 : l.toFinset.card = l.length := List.toFinset_card_of_nodup hnd
  have h2 : u.toFinset.card = u.dedup.length := List.card_toFinset u
  have h3 : l.toFinset ⊆ u.toFinset := by
    intro a ha
    rw [List.mem_toFinset] at ha ⊢
    exact hsub a ha
  have := Finset.card_le_card h3
  omega

/-- The group loop succeeds when the recursive call does, and extends
the seen set exactly by the names of the refs it recursed into. -/
theorem groupsLoop_some (reg : ParsedRegistry) (hwf : RegistryWF reg)
    (fuelAvail : Nat)
    (recFn : List FoundRef → List String →
      Option (List FoundRef × List FoundRef × List String))
    (hrec : ∀ rs sn, WaveOK reg rs → sn.Nodup → sn ⊆ universeNames reg →
      (universeNames reg).dedup.length + 1 ≤ fuelAvail + sn.length →
      ∃ v e s', recFn rs sn = some (v, e, s') ∧
        s' = (e.map refFullName).reverse ++ sn ∧
        s'.Nodup ∧ s' ⊆ universeNames reg) :
    ∀ (gs : List (TextModule × List FoundRef)) (sn : List String),
      (∀ g ∈ gs, g.1 ∈ reg.modules) →
      sn.Nodup → sn ⊆ universeNames reg →
      (gs = [] ∨ (universeNames reg).dedup.length + 1 ≤ fuelAvail + sn.length) →
      ∃ v e s', groupsLoop reg recFn gs sn = some (v, e, s') ∧
        s' = (e.map refFullName).reverse ++ sn ∧
        s'.Nodup ∧ s' ⊆ universeNames reg := by
  intro gs
  induction gs with
  | nil =>
    intro sn _ hnd hsub _
    exact ⟨[], [], sn, rfl, rfl, hnd, hsub⟩
  | cons g gs ih =>
    intro sn hmods hnd hsub hfuel
    have hfuel' : (universeNames reg).dedup.length + 1 ≤ fuelAvail + sn.length := by
      rcases hfuel with h | h
      · cases h
      · exact h
    have hgmod : g.1 ∈ reg.modules := hmods g (List.mem_cons_self _ _)
    have hmods' : ∀ x ∈ gs, x.1 ∈ reg.modules :=
      fun x hx => hmods x (List.mem_cons_of_mem _ hx)
    by_cases hempty : g.2.isEmpty = true
    · have hstep : groupsLoop reg recFn (g :: gs) sn = groupsLoop reg recFn gs sn := by
        show (if g.2.isEmpty then groupsLoop reg recFn gs sn
          else match recFn (childRefsOf reg g.1 g.2).refs sn with
          | none => none
          | some (v1, e1, sn1) =>
            match groupsLoop reg recFn gs sn1 with
            | none => none
            | some (v2, e2, sn2) => some (v1 ++ v2, e1 ++ e2, sn2)) =
          groupsLoop reg recFn gs sn
        rw [if_pos hempty]
      rw [hstep]
      exact ih sn hmods' hnd hsub (Or.inr hfuel')
    · have hwave : WaveOK reg (childRefsOf reg g.1 g.2).refs :=
        childRefsOf_ok hwf hgmod g.2
      obtain ⟨v1, e1, sn1, hr1, hs1, hnd1, hsub1⟩ :=
        hrec (childRefsOf reg g.1 g.2).refs sn hwave hnd hsub hfuel'
      have hlen1 : sn.length ≤ sn1.length := by
        rw [hs1]
        simp
      obtain ⟨v2, e2, sn2, hr2, hs2, hnd2, hsub2⟩ :=
        ih sn1 hmods' hnd1 hsub1 (Or.inr (by omega))
      refine ⟨v1 ++ v2, e1 ++ e2, sn2, ?_, ?_, hnd2, hsub2⟩
      · show (if g.2.isEmpty then groupsLoop reg recFn gs sn
          else match recFn (childRefsOf reg g.1 g.2).refs sn with
          | none => none
          | some (v1, e1, sn1) =>
            match groupsLoop reg recFn gs sn1 with
            | none => none
            | some (v2, e2, sn2) => some (v1 ++ v2, e1 ++ e2, sn2)) =
          some (v1 ++ v2, e1 ++ e2, sn2)
        rw [if_neg hempty, hr1]
        dsimp only
        rw [hr2]
      · rw [hs2, hs1, List.map_append, List.reverse_append, List.append_assoc]

/-- The traversal recursion succeeds on every wave whose refs lie in
the universe, given fuel exceeding the number of not-yet-seen names,
and the seen set ends as the names of all refs recursed into. -/
theorem recursiveRefs_some (reg : ParsedRegistry) (hwf : RegistryWF reg) :
    ∀ (fuel : Nat) (refs : List FoundRef) (seen : List String),
      WaveOK reg refs → seen.Nodup → seen ⊆ universeNames reg →
      (universeNames reg).dedup.length + 1 ≤ fuel + seen.length →
      ∃ v e sn, recursiveRefs reg fuel refs seen = some (v, e, sn) ∧
        sn = (e.map refFullName).reverse ++ seen ∧
        sn.Nodup ∧ sn ⊆ universeNames reg := by
  intro fuel
  induction fuel with
  | zero =>
    intro refs seen hw hnd hsub hfuel
    exfalso
    have := nodup_subset_length hnd hsub
    omega
  | succ fuel ih =>
    intro refs seen hw hnd hsub hfuel
    obtain ⟨hseq, hkept, hnd1, hlen1⟩ := filterStep_spec refs seen
    have hnd1' := hnd1 hnd
    have hsub1 : (filterStep refs seen).2 ⊆ universeNames reg := by
      rw [hseq]
      intro a ha
      rcases List.mem_append.mp ha with h | h
      · rw [List.mem_reverse] at h
        obtain ⟨r, hrk, hrn⟩ := List.mem_map.mp h
        rw [← hrn]
        exact (hw r (hkept r hrk)).1
      · exact hsub h
    have hkeys : ∀ g ∈ groupByMod (textRefs (filterStep refs seen).1),
        g.1 ∈ reg.modules := by
      apply groupByMod_key_prop (fun m => m ∈ reg.modules)
      · intro r hr m e pn i hcase
        have hr' : r ∈ (filterStep refs seen).1 := by
          unfold textRefs at hr
          exact List.mem_of_mem_filter hr
        have := (hw r (hkept r hr')).2
        rw [hcase] at this
        exact this
      · intro g hg
        cases hg
    have hfuelG : groupByMod (textRefs (filterStep refs seen).1) = [] ∨
        (universeNames reg).dedup.length + 1 ≤ fuel + (filterStep refs seen).2.length := by
      by_cases hk : (filterStep refs seen).1 = []
      · left
        rw [hk]
        rfl
      · right
        have : 1 ≤ (filterStep refs seen).1.length := by
          cases hke : (filterStep refs seen).1 with
          | nil => exact absurd hke hk
          | cons a b => simp
        omega
    obtain ⟨v, e, sn, hloop, hsn, hndn, hsubn⟩ :=
      groupsLoop_some reg hwf fuel (fun a b => recursiveRefs reg fuel a b)
        (fun rs s hwv hn hs hf => ih rs s hwv hn hs hf)
        (groupByMod (textRefs (filterStep refs seen).1))
        (filterStep refs seen).2 hkeys hnd1' hsub1 hfuelG
    refine ⟨refs ++ v, (filterStep refs seen).1 ++ e, sn, ?_, ?_, hndn, hsubn⟩
    · show (match groupsLoop reg (fun a b => recursiveRefs reg fuel a b)
          (groupByMod (textRefs (filterStep refs seen).1)) (filterStep refs seen).2 with
        | none => none
        | some (v, e, sn) => some (refs ++ v, (filterStep refs seen).1 ++ e, sn)) =
        some (refs ++ v, (filterStep refs seen).1 ++ e, sn)
      rw [hloop]
    · rw [hsn, hseq, List.map_append, List.reverse_append, List.append_assoc]

/-- Amended claim C2: on every well-formed registry and registered root
module, `traverseRefs` halts — fuel one more than the number of
distinct constructible full names always suffices — and the refs it
recurses into have pairwise-distinct `refFullName`s: each distinct
`refFullName` is expanded at most once.  (The visit callback itself can
run several times per `refFullName`; deduplication gates only the
recursion — see the counterexample.) -/
theorem traverseRefs_halts_and_dedups (reg : ParsedRegistry)
    (root : TextModule) (hwf : RegistryWF reg) (hroot : root ∈ reg.modules) :
    ∃ v e sn,
      traverseRefs reg ((universeNames reg).dedup.length + 1) root = some (v, e, sn) ∧
        (e.map refFullName).Nodup := by
  set srcRefs : List FoundRef :=
    (root.structs.map fun e =>
      FoundRef.txt root (DeclElem.strct e) e.name none) ++
    (root.vars.map fun e =>
      FoundRef.txt root (DeclElem.gvar e) e.name none) ++
    (root.fns.map fun e =>
      FoundRef.txt root (DeclElem.fn e) e.name none) ++
    (root.aliases.map fun e =>
      FoundRef.txt root (DeclElem.aliasDecl e) e.name none) with hsrc
  by_cases hempty : srcRefs.isEmpty = true
  · refine ⟨srcRefs, [], [], ?_, List.Pairwise.nil⟩
    show (if srcRefs.isEmpty then some (srcRefs, ([] : List FoundRef), ([] : List String))
      else match recursiveRefs reg ((universeNames reg).dedup.length + 1)
          (childRefsOf reg root (textRefs srcRefs)).refs [] with
      | none => none
      | some (v, e, sn) => some (srcRefs ++ v, e, sn)) =
      some (srcRefs, [], [])
    rw [if_pos hempty]
  · have hwave : WaveOK reg (childRefsOf reg root (textRefs srcRefs)).refs :=
      childRefsOf_ok hwf hroot (textRefs srcRefs)
    obtain ⟨v, e, sn, hrec, hsn, hndn, -⟩ :=
      recursiveRefs_some reg hwf ((universeNames reg).dedup.length + 1)
        (childRefsOf reg root (textRefs srcRefs)).refs []
        hwave List.Pairwise.nil (by intro a ha; cases ha) (by omega)
    refine ⟨srcRefs ++ v, e, sn, ?_, ?_⟩
    · show (if srcRefs.isEmpty then some (srcRefs, ([] : List FoundRef), ([] : List String))
        else match recursiveRefs reg ((universeNames reg).dedup.length + 1)
            (childRefsOf reg root (textRefs srcRefs)).refs [] with
        | none => none
        | some (v, e, sn) => some (srcRefs ++ v, e, sn)) =
        some (srcRefs ++ v, e, sn)
      rw [if_neg hempty, hrec]
    · have : sn.Nodup := hndn
      rw [hsn, List.append_nil] at this
      rw [← List.nodup_reverse]
      exact this

/-! ### Claims C2 and C6: concrete modules for the counterexamples -/

/-- Root module with `fn a() { b(); b(); }` and `fn b() {}`. -/
def demoFnB : FnElem := ⟨"b", [], []⟩

def demoFnA : FnElem := ⟨"a", [⟨"b", 10, 1⟩, ⟨"b", 20, 2⟩], []⟩

def demoMain : TextModule := ⟨"main", [demoFnA, demoFnB], [], [], [], []⟩

def demoReg : ParsedRegistry := ⟨[demoMain], []⟩

/-- The visit log (in order) as full names. -/
def visitNames (out : Option (List FoundRef × List FoundRef × List String)) :
    List String :=
  match out with
  | some (v, _, _) => v.map refFullName
  | none => []

/-- The visit log (in order) as exporting-module names. -/
def visitMods (out : Option (List FoundRef × List FoundRef × List String)) :
    List String :=
  match out with
  | some (v, _, _) => v.map FoundRef.expModName
  | none => []

/-- Counterexample for claim C2 as stated: with two calls to the same
local fn `b`, the visit callback runs on both occurrences (and on the
root declaration of `b`), so the full name `main/b` is visited three
times; only the recursion is deduplicated. -/
theorem traverseRefs_visits_repeat :
    visitNames (traverseRefs demoReg 5 demoMain) =
        ["main/a", "main/b", "main/b", "main/b"] ∧
      (visitNames (traverseRefs demoReg 5 demoMain)).count "main/b" = 3 := by
  refine ⟨rfl, rfl⟩

/-- Witness for the amended claim C2 on the concrete registry. -/
theorem traverseRefs_halts_and_dedups_witness :
    ∃ v e sn,
      traverseRefs demoReg ((universeNames demoReg).dedup.length + 1) demoMain =
          some (v, e, sn) ∧
        (e.map refFullName).Nodup :=
  traverseRefs_halts_and_dedups demoReg demoMain
    (by intro kv hkv; cases hkv) (List.mem_singleton.mpr rfl)

/-- Two auxiliary modules and a root whose calls interleave them. -/
def fnX6 : FnElem := ⟨"x", [], []⟩

def fnZ6 : FnElem := ⟨"z", [], []⟩

def fnY6 : FnElem := ⟨"y", [], []⟩

def mod1x : TextModule := ⟨"m1", [fnX6, fnZ6], [], [], [], []⟩

def mod2x : TextModule := ⟨"m2", [fnY6], [], [], [], []⟩

def fnA6 : FnElem := ⟨"a", [⟨"x", 1, 11⟩, ⟨"y", 2, 12⟩], []⟩

def fnB6 : FnElem := ⟨"b", [⟨"z", 3, 13⟩], []⟩

def main6 : TextModule := ⟨"main", [fnA6, fnB6], [], [], [], []⟩

def reg6 : ParsedRegistry :=
  ⟨[main6, mod1x, mod2x],
    [(("main", "x"), ⟨ModuleExport.text mod1x (DeclElem.fn fnX6), ["x"], []⟩),
      (("main", "y"), ⟨ModuleExport.text mod2x (DeclElem.fn fnY6), ["y"], []⟩),
      (("main", "z"), ⟨ModuleExport.text mod1x (DeclElem.fn fnZ6), ["z"], []⟩)]⟩

/-- Collapse consecutive runs of equal names (the module blocks of a
delivery sequence). -/
def groupsOf : List String → List String
  | [] => []
  | [x] => [x]
  | x :: y :: rest =>
    if x = y then groupsOf (y :: rest) else x :: groupsOf (y :: rest)

/-- Counterexample for claim C6 as stated: the refs of one wave are
delivered in worklist order, so refs into `m1`, `m2` and `m1` again
interleave — the references resolved into module `m1` are not delivered
contiguously. -/
theorem traverseRefs_interleaves_modules :
    visitMods (traverseRefs reg6 6 main6) = ["main", "main", "m1", "m2", "m1"] ∧
      groupsOf (visitMods (traverseRefs reg6 6 main6)) =
        ["main", "m1", "m2", "m1"] ∧
      ¬ (groupsOf (visitMods (traverseRefs reg6 6 main6))).Nodup := by
  refine ⟨rfl, rfl, by decide⟩

/-- Every successful traversal step delivers its own worklist first. -/
theorem recursiveRefs_wave_prefix (reg : ParsedRegistry) :
    ∀ (fuel : Nat) (refs : List FoundRef) (seen : List String)
      (out : List FoundRef × List FoundRef × List String),
      recursiveRefs reg fuel refs seen = some out → ∃ t, out.1 = refs ++ t := by
  intro fuel refs seen out h
  cases fuel with
  | zero => cases h
  | succ fuel =>
    have hunf : recursiveRefs reg (fuel + 1) refs seen =
        (match groupsLoop reg (fun a b => recursiveRefs reg fuel a b)
            (groupByMod (textRefs (filterStep refs seen).1)) (filterStep refs seen).2 with
        | none => none
        | some (v, e, sn) => some (refs ++ v, (filterStep refs seen).1 ++ e, sn)) := rfl
    rw [hunf] at h
    cases hloop : groupsLoop reg (fun a b => recursiveRefs reg fuel a b)
        (groupByMod (textRefs (filterStep refs seen).1)) (filterStep refs seen).2 with
    | none => rw [hloop] at h; cases h
    | some res =>
      rw [hloop] at h
      obtain ⟨v, e, sn⟩ := res
      cases h
      exact ⟨v, rfl⟩

/-- In the group loop, the child refs computed for each non-empty group
appear as one contiguous block of the delivered sequence. -/
theorem groupsLoop_blocks (reg : ParsedRegistry)
    (recFn : List FoundRef → List String →
      Option (List FoundRef × List FoundRef × List String))
    (hpre : ∀ rs s out, recFn rs s = some out → ∃ t, out.1 = rs ++ t) :
    ∀ (gs : List (TextModule × List FoundRef)) (sn : List String)
      (v e : List FoundRef) (s' : List String),
      groupsLoop reg recFn gs sn = some (v, e, s') →
      ∀ g ∈ gs, g.2 ≠ [] →
        ∃ pre post, v = pre ++ (childRefsOf reg g.1 g.2).refs ++ post := by
  intro gs
  induction gs with
  | nil => intro sn v e s' _ g hg; cases hg
  | cons g0 gs ih =>
    intro sn v e s' h g hg hne
    have hunf : groupsLoop reg recFn (g0 :: gs) sn =
        (if g0.2.isEmpty then groupsLoop reg recFn gs sn
        else match recFn (childRefsOf reg g0.1 g0.2).refs sn with
        | none => none
        | some (v1, e1, sn1) =>
          match groupsLoop reg recFn gs sn1 with
          | none => none
          | some (v2, e2, sn2) => some (v1 ++ v2, e1 ++ e2, sn2)) := rfl
    rw [hunf] at h
    by_cases hempty : g0.2.isEmpty = true
    · rw [if_pos hempty] at h
      rcases List.mem_cons.mp hg with rfl | hgs
      · exact absurd (List.isEmpty_iff.mp hempty) hne
      · exact ih sn v e s' h g hgs hne
    · rw [if_neg hempty] at h
      cases hr1 : recFn (childRefsOf reg g0.1 g0.2).refs sn with
      | none => rw [hr1] at h; cases h
      | some res1 =>
        rw [hr1] at h
        obtain ⟨v1, e1, sn1⟩ := res1
        dsimp only at h
        cases hr2 : groupsLoop reg recFn gs sn1 with
        | none => rw [hr2] at h; cases h
        | some res2 =>
          rw [hr2] at h
          obtain ⟨v2, e2, sn2⟩ := res2
          cases h
          rcases List.mem_cons.mp hg with rfl | hgs
          · obtain ⟨t, ht⟩ := hpre _ _ _ hr1
            dsimp only at ht
            refine ⟨[], t ++ v2, ?_⟩
            rw [List.nil_append, ht, List.append_assoc]
          · obtain ⟨pre, post, hpp⟩ := ih sn1 v2 e2 _ hr2 g hgs hne
            refine ⟨v1 ++ pre, post, ?_⟩
            rw [hpp]
            simp [List.append_assoc]

/-- Amended claim C6: delivery is depth-first grouped by exporting
module, not breadth-first.  Within one traversal step the whole
worklist is delivered first, in worklist order (so refs into different
modules can interleave — see the counterexample); the child references
are then computed one exporting-module group at a time, and the
references found inside one module's group form a single contiguous
block of the delivered sequence, processed (together with its entire
descent) before the next module's group is expanded. -/
theorem recursiveRefs_delivery_structure (reg : ParsedRegistry)
    (fuel : Nat) (refs : List FoundRef) (seen : List String)
    (v e : List FoundRef) (sn : List String)
    (h : recursiveRefs reg (fuel + 1) refs seen = some (v, e, sn)) :
    (∃ t, v = refs ++ t) ∧
      (∀ g ∈ groupByMod (textRefs (filterStep refs seen).1),
        ∃ pre post, v = pre ++ (childRefsOf reg g.1 g.2).refs ++ post) := by
  constructor
  · exact recursiveRefs_wave_prefix reg (fuel + 1) refs seen (v, e, sn) h
  · intro g hg
    have hunf : recursiveRefs reg (fuel + 1) refs seen =
        (match groupsLoop reg (fun a b => recursiveRefs reg fuel a b)
            (groupByMod (textRefs (filterStep refs seen).1)) (filterStep refs seen).2 with
        | none => none
        | some (v, e, sn) => some (refs ++ v, (filterStep refs seen).1 ++ e, sn)) := rfl
    rw [hunf] at h
    cases hloop : groupsLoop reg (fun a b => recursiveRefs reg fuel a b)
        (groupByMod (textRefs (filterStep refs seen).1)) (filterStep refs seen).2 with
    | none => rw [hloop] at h; cases h
    | some res =>
      rw [hloop] at h
      obtain ⟨v0, e0, sn0⟩ := res
      cases h
      have hne : g.2 ≠ [] :=
        groupByMod_nonempty (textRefs (filterStep refs seen).1) []
          (by intro x hx; cases hx) g hg
      obtain ⟨pre, post, hpp⟩ :=
        groupsLoop_blocks reg (fun a b => recursiveRefs reg fuel a b)
          (fun rs s out hout => recursiveRefs_wave_prefix reg fuel rs s out hout)
          _ _ v0 e0 _ hloop g hg hne
      refine ⟨refs ++ pre, post, ?_⟩
      rw [hpp]
      simp [List.append_assoc]

/-- Witness for the amended claim C6: the delivery structure at the
concrete two-module wave of `reg6`. -/
theorem recursiveRefs_delivery_structure_witness :
    (∃ t, ((recursiveRefs reg6 5 (childRefsOf reg6 main6 [FoundRef.txt main6
        (DeclElem.fn fnA6) "a" none, FoundRef.txt main6 (DeclElem.fn fnB6) "b" none]).refs
        []).getD ([], [], [])).1 =
      (childRefsOf reg6 main6 [FoundRef.txt main6 (DeclElem.fn fnA6) "a" none,
        FoundRef.txt main6 (DeclElem.fn fnB6) "b" none]).refs ++ t) ∧
    (∀ g ∈ groupByMod (textRefs (filterStep
        (childRefsOf reg6 main6 [FoundRef.txt main6 (DeclElem.fn fnA6) "a" none,
          FoundRef.txt main6 (DeclElem.fn fnB6) "b" none]).refs []).1),
      ∃ pre post,
        ((recursiveRefs reg6 5 (childRefsOf reg6 main6 [FoundRef.txt main6
            (DeclElem.fn fnA6) "a" none, FoundRef.txt main6 (DeclElem.fn fnB6) "b" none]).refs
            []).getD ([], [], [])).1 =
          pre ++ (childRefsOf reg6 g.1 g.2).refs ++ post) :=
  recursiveRefs_delivery_structure reg6 4
    (childRefsOf reg6 main6 [FoundRef.txt main6 (DeclElem.fn fnA6) "a" none,
      FoundRef.txt main6 (DeclElem.fn fnB6) "b" none]).refs []
    ((recursiveRefs reg6 5 (childRefsOf reg6 main6 [FoundRef.txt main6
        (DeclElem.fn fnA6) "a" none, FoundRef.txt main6 (DeclElem.fn fnB6) "b" none]).refs
        []).getD ([], [], [])).1
    ((recursiveRefs reg6 5 (childRefsOf reg6 main6 [FoundRef.txt main6
        (DeclElem.fn fnA6) "a" none, FoundRef.txt main6 (DeclElem.fn fnB6) "b" none]).refs
        []).getD ([], [], [])).2.1
    ((recursiveRefs reg6 5 (childRefsOf reg6 main6 [FoundRef.txt main6
        (DeclElem.fn fnA6) "a" none, FoundRef.txt main6 (DeclElem.fn fnB6) "b" none]).refs
        []).getD ([], [], [])).2.2
    rfl

end WgslLinker
